import Mathlib

/-!
Verification development for the Unicode Character Database normalization
scripts of this repository (scripts/unicode/colt.py and
scripts/unicode/parseunicode.py), shallowly embedded in Lean.

Machine integers are modelled as Nat/Int (Python ints are unbounded);
Python dictionaries are modelled as functions to Option; code that can
raise an exception is modelled with Option results (none = the operation
raises).
-/

namespace Colt

/-- Model of CodePoint.max_code_point(): the max value of a code point. -/
def maxCodePoint : Nat := 0x10FFFF

/-- The sixteen uppercase hexadecimal digit characters, as produced by
Python uppercase hex formatting. -/
def HEX_UPPER : List Char :=
  ['0', '1', '2', '3', '4', '5', '6', '7', '8', '9', 'A', 'B', 'C', 'D', 'E', 'F']

def hexChar (n : Nat) : Char := HEX_UPPER.getD n ('0')

/-- Big-endian digits of a Python format expression of the shape
value divided down through w nibbles: digit k is value / 16^(w-1-k) mod 16.
For value < 16^w this is exactly the zero-padded width-w uppercase hex
rendering used by the Python format specifications 04X / 05X / 06X
(the script only ever formats values below 16^6). -/
def nibbles (w v : Nat) : List Char :=
  (List.range w).map (fun k => hexChar (v / 16 ^ (w - 1 - k) % 16))

/-- Model of CodePoint.int_to_hex (colt.py lines 18-31): width 4 if the
value is at most 0xFFFF, width 5 if at most 0xFFFFF, else width 6. -/
def int_to_hex (v : Nat) : String :=
  if v ≤ 0xFFFF then String.mk (nibbles 4 v)
  else if v ≤ 0xFFFFF then String.mk (nibbles 5 v)
  else String.mk (nibbles 6 v)

/-- The character class of the regex fragment CP_HEX_REGEX: [0-9a-fA-F]. -/
def isHexDigitChar (c : Char) : Bool :=
  if (('0' ≤ c ∧ c ≤ '9') ∨ ('a' ≤ c ∧ c ≤ 'f') ∨ ('A' ≤ c ∧ c ≤ 'F')) then true else false

/-- Numeric value of one hexadecimal digit character, as used by
Python int(s, 16) (case insensitive). -/
def hexVal (c : Char) : Nat :=
  if ('0' ≤ c ∧ c ≤ '9') then c.toNat - ('0').toNat
  else if ('a' ≤ c ∧ c ≤ 'f') then c.toNat - ('a').toNat + 10
  else c.toNat - ('A').toNat + 10

/-- Model of Python int(s, 16) on a string of hexadecimal digits. -/
def parseHex (l : List Char) : Nat := l.foldl (fun a c => 16 * a + hexVal c) 0

/-- Whitespace stripped by Python str.strip(). -/
def isPyWS (c : Char) : Bool :=
  c = ' ' ∨ c = '\t' ∨ c = '\n' ∨ c = '\r' ∨ c = '\x0b' ∨ c = '\x0c'

/-- Model of Python str.strip(). -/
def pyStrip (l : List Char) : List Char :=
  ((l.dropWhile isPyWS).reverse.dropWhile isPyWS).reverse

/-- Model of the CodePoint constructor (colt.py lines 56-67): raises
(returns none) only when the value exceeds 0x10FFFF; there is no lower
bound check, so any negative value is accepted and stored unchanged. -/
def CodePoint_init (v : Int) : Option Int :=
  if v > (maxCodePoint : Int) then none else some v

/-- Model of CodePoint.from_str (colt.py lines 41-54): strip, full match
of the anchored regex (one group of 4 to 6 hex digits), then int(s, 16)
fed to the CodePoint constructor. -/
def CodePoint_from_str (s : String) : Option Nat :=
  let v := pyStrip s.data
  if 4 ≤ v.length ∧ v.length ≤ 6 ∧ v.all isHexDigitChar then
    let n := parseHex v
    if n > maxCodePoint then none else some n
  else none

/-!
### The CODE_POINT_RANGE_FROM_STR regex

colt.py line 12 compiles the pattern anchored by a caret and a dollar:
one group of 4-6 hex digits, then an OPTIONAL sequence of two unescaped
dots followed by a second group of 4-6 hex digits.  An unescaped dot
matches any character except a newline, so the separator is NOT required
to be two literal dot characters.  The matcher below reproduces the
backtracking search of the Python engine: the first greedy quantifier
tries lengths 6, 5, 4 in that order; for each, the optional group is
tried present-first; the final dollar forces the rest of the input to be
consumed.  (The Python dollar also accepts a single trailing newline;
no claim depends on that corner, and it is not modelled.)
-/

/-- One backtracking attempt with the first group bound to the first n
characters. Returns the two captured groups on success. -/
def tryG1 (s : List Char) (n : Nat) : Option (List Char × Option (List Char)) :=
  if n ≤ s.length ∧ (s.take n).all isHexDigitChar then
    match s.drop n with
    | [] => some (s.take n, none)
    | [_] => none
    | c1 :: c2 :: rest =>
      if c1 ≠ '\n' ∧ c2 ≠ '\n' ∧ 4 ≤ rest.length ∧ rest.length ≤ 6 ∧
          rest.all isHexDigitChar then
        some (s.take n, some rest)
      else none
  else none

/-- Full-match semantics of CODE_POINT_RANGE_FROM_STR.match. -/
def regexRangeMatch (s : List Char) : Option (List Char × Option (List Char)) :=
  (tryG1 s 6).orElse (fun _ => (tryG1 s 5).orElse (fun _ => tryG1 s 4))

/-- Model of CodePointRange.from_str (colt.py lines 111-129): regex
match, each group converted with int(g, 16) and the CodePoint
constructor, then the CodePointRange constructor check begin ≤ end. -/
def CodePointRange_from_str (s : String) : Option (Int × Int) :=
  match regexRangeMatch s.data with
  | none => none
  | some (g1, none) =>
    match CodePoint_init (parseHex g1) with
    | none => none
    | some v => some (v, v)
  | some (g1, some g2) =>
    match CodePoint_init (parseHex g1), CodePoint_init (parseHex g2) with
    | some b, some e => if b > e then none else some (b, e)
    | _, _ => none

/-!
### Dynamic typing model for CodePointRange.__str__

colt.py line 89 calls CodePoint.int_to_hex(self.begin) where self.begin
is a CodePoint object, not an int.  int_to_hex immediately evaluates
value <= 0xFFFF; the dataclass-generated comparison of a CodePoint with
an int returns NotImplemented on both sides, so Python raises TypeError.
PyVal distinguishes the two runtime types; a comparison across types
yields none (the TypeError).
-/

inductive PyVal where
  | pint : Int → PyVal
  | pcp : Int → PyVal
  deriving DecidableEq

def pyLE : PyVal → PyVal → Option Bool
  | .pint a, .pint b => some (a ≤ b)
  | .pcp a, .pcp b => some (a ≤ b)
  | _, _ => none

/-- Formatting step of int_to_hex on a dynamic value: an f-string hex
format only succeeds on an int.  (A negative int would render with a
sign in Python; that point is unreachable in the modelled call sites.) -/
def pyFormatHex (w : Nat) : PyVal → Option String
  | .pint a => some (String.mk (nibbles w a.toNat))
  | .pcp _ => none

/-- Model of CodePoint.int_to_hex applied to a dynamically typed
argument, as CodePointRange.__str__ does. -/
def int_to_hex_dyn (v : PyVal) : Option String :=
  match pyLE v (.pint 0xFFFF) with
  | none => none
  | some true => pyFormatHex 4 v
  | some false =>
    match pyLE v (.pint 0xFFFFF) with
    | none => none
    | some true => pyFormatHex 5 v
    | some false => pyFormatHex 6 v

/-- Model of CodePointRange.__str__ (colt.py lines 82-90): the begin and
end fields hold CodePoint objects and are passed directly to
int_to_hex. -/
def CodePointRange_str (b e : Int) : Option String :=
  if e ≠ b then
    match int_to_hex_dyn (.pcp b), int_to_hex_dyn (.pcp e) with
    | some s1, some s2 => some (s1 ++ ".." ++ s2)
    | _, _ => none
  else int_to_hex_dyn (.pcp b)

end Colt

namespace Colt

/-! ### Hexadecimal round-trip lemmas -/

lemma hexVal_hexChar : ∀ n, n < 16 → hexVal (hexChar n) = n := by decide

lemma isHex_hexChar : ∀ n, n < 16 → isHexDigitChar (hexChar n) = true := by decide

lemma noWS_hexChar : ∀ n, n < 16 → isPyWS (hexChar n) = false := by decide

lemma parseHex_foldl (l : List Char) (a : Nat) :
    l.foldl (fun a c => 16 * a + hexVal c) a = a * 16 ^ l.length + parseHex l := by
  induction l generalizing a with
  | nil => simp [parseHex]
  | cons c l ih =>
    simp only [List.foldl_cons, parseHex, List.length_cons]
    rw [ih (16 * a + hexVal c), ih (16 * 0 + hexVal c)]
    ring

lemma parseHex_cons (c : Char) (l : List Char) :
    parseHex (c :: l) = hexVal c * 16 ^ l.length + parseHex l := by
  show l.foldl (fun a c => 16 * a + hexVal c) (16 * 0 + hexVal c) = _
  rw [parseHex_foldl]
  ring_nf

lemma nibbles_zero (v : Nat) : nibbles 0 v = [] := by simp [nibbles]

lemma nibbles_succ (w v : Nat) :
    nibbles (w + 1) v = hexChar (v / 16 ^ w % 16) :: nibbles w v := by
  unfold nibbles
  rw [List.range_succ_eq_map]
  simp only [List.map_cons, List.map_map]
  congr 1
  apply List.map_congr_left
  intro k _
  simp only [Function.comp_apply]
  have h1 : w + 1 - 1 - Nat.succ k = w - 1 - k := by omega
  rw [h1]

lemma length_nibbles (w v : Nat) : (nibbles w v).length = w := by
  simp [nibbles]

lemma parseHex_nibbles (w v : Nat) : parseHex (nibbles w v) = v % 16 ^ w := by
  induction w with
  | zero => simp [nibbles_zero, parseHex, Nat.mod_one]
  | succ w ih =>
    rw [nibbles_succ, parseHex_cons, length_nibbles, ih,
      hexVal_hexChar _ (Nat.mod_lt _ (by norm_num)), Nat.mod_pow_succ]
    ring

lemma parseHex_nibbles_of_lt (w v : Nat) (h : v < 16 ^ w) :
    parseHex (nibbles w v) = v := by
  rw [parseHex_nibbles, Nat.mod_eq_of_lt h]

lemma allHex_nibbles (w v : Nat) : (nibbles w v).all isHexDigitChar = true := by
  rw [List.all_eq_true]
  intro c hc
  simp only [nibbles, List.mem_map, List.mem_range] at hc
  obtain ⟨k, -, rfl⟩ := hc
  exact isHex_hexChar _ (Nat.mod_lt _ (by norm_num))

lemma dropWhile_all_false {p : Char → Bool} {l : List Char}
    (h : ∀ c ∈ l, p c = false) : l.dropWhile p = l := by
  cases l with
  | nil => rfl
  | cons c l => simp [List.dropWhile_cons, h c (List.mem_cons_self c l)]

lemma pyStrip_nibbles (w v : Nat) : pyStrip (nibbles w v) = nibbles w v := by
  have hmem : ∀ c ∈ nibbles w v, isPyWS c = false := by
    intro c hc
    simp only [nibbles, List.mem_map, List.mem_range] at hc
    obtain ⟨k, -, rfl⟩ := hc
    exact noWS_hexChar _ (Nat.mod_lt _ (by norm_num))
  unfold pyStrip
  rw [dropWhile_all_false hmem, dropWhile_all_false (fun c hc => hmem c (List.mem_reverse.mp hc)),
    List.reverse_reverse]

lemma CodePoint_from_str_nibbles (w v : Nat) (hw1 : 4 ≤ w) (hw2 : w ≤ 6)
    (hv : v < 16 ^ w) (hmax : v ≤ maxCodePoint) :
    CodePoint_from_str (String.mk (nibbles w v)) = some v := by
  have hdata : (String.mk (nibbles w v)).data = nibbles w v := rfl
  simp only [CodePoint_from_str, hdata, pyStrip_nibbles, length_nibbles]
  rw [if_pos ⟨hw1, hw2, allHex_nibbles w v⟩, parseHex_nibbles_of_lt w v hv,
    if_neg (by omega)]

/-- Claim C8: for every code point value v in [0, 0x10FFFF], parsing the
canonical zero-padded hex form (width 4 if v ≤ 0xFFFF, 5 if v ≤ 0xFFFFF,
else 6) yields v back: CodePoint.from_str(CodePoint.int_to_hex(v)) = v. -/
theorem c8_roundtrip (v : Nat) (h : v ≤ maxCodePoint) :
    CodePoint_from_str (int_to_hex v) = some v := by
  have hmaxval : maxCodePoint = 0x10FFFF := rfl
  unfold int_to_hex
  by_cases h1 : v ≤ 0xFFFF
  · rw [if_pos h1]
    have h16 : (16 : Nat) ^ 4 = 65536 := by norm_num
    exact CodePoint_from_str_nibbles 4 v (by omega) (by omega) (by omega) h
  · rw [if_neg h1]
    by_cases h2 : v ≤ 0xFFFFF
    · rw [if_pos h2]
      have h16 : (16 : Nat) ^ 5 = 1048576 := by norm_num
      exact CodePoint_from_str_nibbles 5 v (by omega) (by omega) (by omega) h
    · rw [if_neg h2]
      have h16 : (16 : Nat) ^ 6 = 16777216 := by norm_num
      exact CodePoint_from_str_nibbles 6 v (by omega) (by omega) (by omega) h

/-- Witness for C8 at the concrete code point 0x1F600. -/
theorem c8_roundtrip_witness :
    0x1F600 ≤ maxCodePoint ∧ CodePoint_from_str (int_to_hex 0x1F600) = some 0x1F600 :=
  ⟨by decide, c8_roundtrip 0x1F600 (by decide)⟩

/-- Claim C6 (code bug): the string below is not of the form HEX..HEX
(the separator characters are two letters, not two dots), yet from_str
accepts it and returns the range 0041..0042, because the two dots in the
CODE_POINT_RANGE_FROM_STR pattern are unescaped and match any two
characters. -/
theorem c6_regex_dot_bug :
    CodePointRange_from_str ("0041zz0042") = some (0x41, 0x42) := by decide

/-- Claim C7 (code bug): converting a CodePointRange to a string always
raises TypeError, because __str__ passes the CodePoint objects begin and
end to int_to_hex, whose first comparison against an int is unsupported
between the two types.  The model returns none (an exception) for every
range, never the canonical hex form the claim describes. -/
theorem c7_str_always_raises (b e : Int) : CodePointRange_str b e = none := by
  unfold CodePointRange_str int_to_hex_dyn pyLE
  split <;> simp

end Colt

namespace Colt

/-! ### Plane chunker (colt.py lines 148-161) -/

/-- Model of colt.chunk: d, r = divmod(len(l), n); chunk i starts at
(d+1)*(i if i < r else r) + d*(0 if i < r else i-r) and has d+1 elements
when i < r, else d. The generator is modelled as the list of its
yields. -/
def chunk {α : Type} (l : List α) (n : Nat) : List (List α) :=
  let d := l.length / n
  let r := l.length % n
  (List.range n).map (fun i =>
    let si := (d + 1) * (if i < r then i else r) + d * (if i < r then 0 else i - r)
    (l.drop si).take (if i < r then d + 1 else d))

/-- Closed form of the chunk start offsets. -/
def chunkStart (d r i : Nat) : Nat := (d + 1) * min i r + d * (i - min i r)

lemma chunkStart_zero (d r : Nat) : chunkStart d r 0 = 0 := by simp [chunkStart]

lemma si_eq (d r i : Nat) :
    (d + 1) * (if i < r then i else r) + d * (if i < r then 0 else i - r) =
      chunkStart d r i := by
  unfold chunkStart
  by_cases h : i < r
  · rw [if_pos h, if_pos h, min_eq_left (le_of_lt h)]
    simp
  · rw [if_neg h, if_neg h, min_eq_right (le_of_not_lt h)]

lemma chunkStart_succ_sub (d r i : Nat) :
    chunkStart d r (i + 1) - chunkStart d r i = if i < r then d + 1 else d := by
  unfold chunkStart
  by_cases h : i < r
  · rw [if_pos h, min_eq_left (le_of_lt h), min_eq_left (by omega), Nat.mul_succ]
    simp only [Nat.sub_self, Nat.mul_zero, Nat.add_zero]
    omega
  · rw [if_neg h, min_eq_right (le_of_not_lt h), min_eq_right (by omega)]
    have h1 : i + 1 - r = (i - r) + 1 := by omega
    rw [h1, Nat.mul_succ]
    omega

lemma chunkStart_step (d r i : Nat) : chunkStart d r i ≤ chunkStart d r (i + 1) := by
  unfold chunkStart
  by_cases h : i < r
  · rw [min_eq_left (le_of_lt h), min_eq_left (by omega), Nat.mul_succ]
    simp only [Nat.sub_self, Nat.mul_zero, Nat.add_zero]
    omega
  · rw [min_eq_right (le_of_not_lt h), min_eq_right (by omega)]
    have h1 : i + 1 - r = (i - r) + 1 := by omega
    rw [h1, Nat.mul_succ]
    omega

lemma mono_of_step {S : Nat → Nat} (hmono : ∀ i, S i ≤ S (i + 1)) :
    ∀ {i j}, i ≤ j → S i ≤ S j := by
  intro i j h
  induction j with
  | zero =>
    have h0 : i = 0 := by omega
    subst h0
    exact le_refl _
  | succ j ih =>
    rcases Nat.eq_or_lt_of_le h with h1 | h1
    · subst h1
      exact le_refl _
    · exact le_trans (ih (by omega)) (hmono j)

lemma chunkStart_total (d r n : Nat) (h : r ≤ n) : chunkStart d r n = d * n + r := by
  obtain ⟨m, rfl⟩ : ∃ m, n = r + m := ⟨n - r, by omega⟩
  unfold chunkStart
  rw [min_eq_right (by omega)]
  have h1 : r + m - r = m := by omega
  rw [h1]
  ring

lemma join_chunks {α : Type} (l : List α) (S : Nat → Nat)
    (hmono : ∀ i, S i ≤ S (i + 1)) :
    ∀ (m k : Nat), ((List.range' k m).map
        (fun i => (l.drop (S i)).take (S (i + 1) - S i))).flatten
      = (l.drop (S k)).take (S (k + m) - S k) := by
  intro m
  induction m with
  | zero => intro k; simp
  | succ m ih =>
    intro k
    rw [List.range'_succ]
    simp only [List.map_cons, List.flatten_cons]
    rw [ih (k + 1)]
    have hk : S k ≤ S (k + 1) := hmono k
    have hk2 : S (k + 1) ≤ S (k + 1 + m) := mono_of_step hmono (by omega)
    have harg : k + (m + 1) = k + 1 + m := by omega
    rw [harg]
    have h1 : (S (k + 1) - S k) + (S (k + 1 + m) - S (k + 1)) = S (k + 1 + m) - S k := by
      rw [Nat.add_comm]
      exact tsub_add_tsub_cancel hk2 hk
    rw [← h1, List.take_add]
    have h2 : (l.drop (S k)).drop (S (k + 1) - S k) = l.drop (S (k + 1)) := by
      rw [List.drop_drop]
      have h3 : S k + (S (k + 1) - S k) = S (k + 1) := by omega
      rw [h3]
    rw [h2]

lemma chunk_eq_map {α : Type} (l : List α) (n : Nat) :
    chunk l n = (List.range n).map (fun i =>
      (l.drop (chunkStart (l.length / n) (l.length % n) i)).take
        (chunkStart (l.length / n) (l.length % n) (i + 1) -
          chunkStart (l.length / n) (l.length % n) i)) := by
  unfold chunk
  apply List.map_congr_left
  intro i _
  rw [si_eq, chunkStart_succ_sub]

lemma length_chunk_total {α : Type} (l : List α) (n : Nat) (hn : 1 ≤ n) :
    chunkStart (l.length / n) (l.length % n) n = l.length := by
  rw [chunkStart_total _ _ _ (le_of_lt (Nat.mod_lt _ (by omega)))]
  have h := Nat.div_add_mod l.length n
  rw [Nat.mul_comm] at h
  omega

lemma chunk_flatten {α : Type} (l : List α) (n : Nat) (hn : 1 ≤ n) :
    (chunk l n).flatten = l := by
  rw [chunk_eq_map, List.range_eq_range',
    join_chunks l _ (chunkStart_step (l.length / n) (l.length % n)) n 0]
  rw [chunkStart_zero, Nat.zero_add, length_chunk_total l n hn]
  simp

lemma chunk_size {α : Type} (l : List α) (n : Nat) (hn : 1 ≤ n) (i : Nat) (hi : i < n) :
    ((chunk l n).getD i []).length =
      if i < l.length % n then l.length / n + 1 else l.length / n := by
  rw [chunk_eq_map]
  have hr : ((List.range n).map (fun i =>
      (l.drop (chunkStart (l.length / n) (l.length % n) i)).take
        (chunkStart (l.length / n) (l.length % n) (i + 1) -
          chunkStart (l.length / n) (l.length % n) i)))[i]? =
      some ((l.drop (chunkStart (l.length / n) (l.length % n) i)).take
        (chunkStart (l.length / n) (l.length % n) (i + 1) -
          chunkStart (l.length / n) (l.length % n) i)) := by
    rw [List.getElem?_map, List.getElem?_range hi]
    rfl
  rw [List.getD_eq_getElem?_getD, hr]
  simp only [Option.getD_some]
  rw [List.length_take, List.length_drop]
  have h1 : chunkStart (l.length / n) (l.length % n) (i + 1) ≤ l.length := by
    have h2 := mono_of_step (fun t => chunkStart_step (l.length / n) (l.length % n) t)
      (show i + 1 ≤ n by omega)
    rw [length_chunk_total l n hn] at h2
    exact h2
  have h2 := chunkStart_step (l.length / n) (l.length % n) i
  have h3 := chunkStart_succ_sub (l.length / n) (l.length % n) i
  by_cases h : i < l.length % n
  · rw [if_pos h] at h3 ⊢
    omega
  · rw [if_neg h] at h3 ⊢
    omega

/-- Claim C9: for every list l and chunk count n ≥ 1, chunk yields
exactly n contiguous chunks; chunk i has length len/n + 1 when
i < len mod n and len/n otherwise (the remainder goes one element each to
the earliest chunks); the sizes sum to the length of l; any two sizes
differ by at most 1; and concatenating the chunks in order reproduces l
exactly. -/
theorem c9_chunk {α : Type} (l : List α) (n : Nat) (hn : 1 ≤ n) :
    (chunk l n).length = n ∧
    (∀ i, i < n → ((chunk l n).getD i []).length =
      if i < l.length % n then l.length / n + 1 else l.length / n) ∧
    ((chunk l n).map List.length).sum = l.length ∧
    (∀ i j, i < n → j < n →
      ((chunk l n).getD i []).length ≤ ((chunk l n).getD j []).length + 1) ∧
    (chunk l n).flatten = l := by
  refine ⟨by simp [chunk], fun i hi => chunk_size l n hn i hi, ?_, ?_, chunk_flatten l n hn⟩
  · rw [← List.length_flatten, chunk_flatten l n hn]
  · intro i j hi hj
    rw [chunk_size l n hn i hi, chunk_size l n hn j hj]
    by_cases h1 : i < l.length % n <;> by_cases h2 : j < l.length % n <;>
      simp only [h1, h2, if_true, if_false] <;> omega

/-- Witness for C9: chunking a 7-element list into 3 chunks and
concatenating reproduces the list. -/
theorem c9_chunk_witness :
    (chunk [0, 1, 2, 3, 4, 5, 6] 3).flatten = [0, 1, 2, 3, 4, 5, 6] :=
  (c9_chunk [0, 1, 2, 3, 4, 5, 6] 3 (by decide)).2.2.2.2

end Colt

namespace Colt

/-! ### Alias resolver (parseunicode.py lines 117-134) -/

/-- parseunicode.py line 36. -/
def DEPRECATED_PROPERTIES : List String :=
  ["isc", "ISO_Comment", "Script_Extensions", "scx"]

/-- A Python dict from strings to strings, as a function to Option. -/
def SDict : Type := String → Option String

/-- One Python dict assignment d[k] = v. -/
def sset (d : SDict) (k v : String) : SDict :=
  fun x => if x = k then some v else d x

/-- One semicolon-split, stripped record of PropertyAliases.txt: field 0,
field 1, and the remaining fields (split indices 2 and up). -/
structure AliasRec where
  fld0 : String
  fld1 : String
  rest : List String
  deriving DecidableEq

/-- All the strings listed on one record. -/
def recKeys (r : AliasRec) : List String := r.fld0 :: r.fld1 :: r.rest

/-- Whether the record is skipped by the deprecation filter
(parseunicode.py line 128): field 0 or field 1 deprecated. -/
def recDeprecated (r : AliasRec) : Bool :=
  r.fld0 ∈ DEPRECATED_PROPERTIES ∨ r.fld1 ∈ DEPRECATED_PROPERTIES

/-- Processing of one record by parse_propertyaliases: NAME = field 0,
VALUE = field 1; skip if either is deprecated, else assign
d[NAME] = NAME, d[VALUE] = NAME, and d[a] = NAME for every further
alias a. -/
def aliasRecStep (d : SDict) (r : AliasRec) : SDict :=
  if recDeprecated r then d
  else r.rest.foldl (fun d2 a => sset d2 a r.fld0)
    (sset (sset d r.fld0 r.fld0) r.fld1 r.fld0)

/-- Model of parse_propertyaliases (parseunicode.py lines 117-134) on the
already-split records of the input lines: builds the dict of names to
field 0 of their record. -/
def parse_propertyaliases (lines : List AliasRec) : SDict :=
  lines.foldl aliasRecStep (fun _ => none)

lemma sset_ne (d : SDict) (k v x : String) (h : x ≠ k) : sset d k v x = d x := by
  simp [sset, h]

lemma sset_eq (d : SDict) (k v : String) : sset d k v k = some v := by
  simp [sset]

lemma foldl_sset_lookup (nm : String) (al : List String) (d : SDict) (x : String) :
    al.foldl (fun d2 a => sset d2 a nm) d x =
      if x ∈ al then some nm else d x := by
  induction al generalizing d with
  | nil => simp
  | cons a al ih =>
    simp only [List.foldl_cons, ih]
    by_cases hx : x ∈ al
    · simp [hx]
    · by_cases hxa : x = a
      · subst hxa
        simp [hx, sset_eq]
      · simp [hx, hxa, sset_ne d a nm x hxa]

lemma aliasRecStep_mem (d : SDict) (r : AliasRec) (x : String)
    (hdep : recDeprecated r = false) (hx : x ∈ recKeys r) :
    aliasRecStep d r x = some r.fld0 := by
  unfold aliasRecStep
  rw [hdep]
  simp only [Bool.false_eq_true, if_false, foldl_sset_lookup]
  by_cases h1 : x ∈ r.rest
  · simp [h1]
  · rw [if_neg h1]
    simp only [recKeys, List.mem_cons] at hx
    rcases hx with h2 | h2 | h2
    · by_cases h3 : x = r.fld1
      · rw [h3, sset_eq]
      · rw [sset_ne _ _ _ _ h3, h2, sset_eq]
    · rw [h2, sset_eq]
    · exact absurd h2 h1

lemma aliasRecStep_not_mem (d : SDict) (r : AliasRec) (x : String)
    (hx : ¬x ∈ recKeys r) : aliasRecStep d r x = d x := by
  unfold aliasRecStep
  simp only [recKeys, List.mem_cons, not_or] at hx
  obtain ⟨h0, h1, h2⟩ := hx
  by_cases hdep : recDeprecated r
  · rw [if_pos hdep]
  · rw [if_neg hdep, foldl_sset_lookup, if_neg h2, sset_ne _ _ _ _ h1, sset_ne _ _ _ _ h0]

lemma aliasRecStep_dep (d : SDict) (r : AliasRec) (x : String)
    (hdep : recDeprecated r = true) : aliasRecStep d r x = d x := by
  unfold aliasRecStep
  rw [hdep]
  simp

lemma foldl_alias_preserve (ls : List AliasRec) (d : SDict) (x nm : String)
    (hd : d x = some nm)
    (h : ∀ r2 ∈ ls, x ∈ recKeys r2 → recDeprecated r2 = false → r2.fld0 = nm) :
    ls.foldl aliasRecStep d x = some nm := by
  induction ls generalizing d with
  | nil => exact hd
  | cons r ls ih =>
    simp only [List.foldl_cons]
    apply ih
    · by_cases hmem : x ∈ recKeys r
      · by_cases hdep : recDeprecated r
        · rw [aliasRecStep_dep d r x hdep]
          exact hd
        · rw [aliasRecStep_mem d r x (by simpa using hdep) hmem]
          rw [h r (List.mem_cons_self r ls) hmem (by simpa using hdep)]
      · rw [aliasRecStep_not_mem d r x hmem]
        exact hd
    · exact fun r2 hr2 => h r2 (List.mem_cons_of_mem r hr2)

lemma foldl_alias_untouched (ls : List AliasRec) (d : SDict) (x : String)
    (h : ∀ r2 ∈ ls, x ∈ recKeys r2 → recDeprecated r2 = true) :
    ls.foldl aliasRecStep d x = d x := by
  induction ls generalizing d with
  | nil => rfl
  | cons r ls ih =>
    simp only [List.foldl_cons]
    rw [ih _ (fun r2 hr2 => h r2 (List.mem_cons_of_mem r hr2))]
    by_cases hmem : x ∈ recKeys r
    · exact aliasRecStep_dep d r x (h r (List.mem_cons_self r ls) hmem)
    · exact aliasRecStep_not_mem d r x hmem

/-- Claim C1 (counterexample): on the single record with field 0
"Alphabetic" and field 1 "Alpha", the resolver maps the abbreviation
"Alpha" to "Alphabetic" — the record's field at index 0 — and not to the
field at index 1 as the claim states. -/
theorem c1_counterexample :
    parse_propertyaliases [⟨"Alphabetic", "Alpha", []⟩] ("Alpha") = some ("Alphabetic") ∧
    parse_propertyaliases [⟨"Alphabetic", "Alpha", []⟩] ("Alpha") ≠ some ("Alpha") := by
  constructor
  · rfl
  · decide

/-- Claim C1 as amended: every listed name of a record whose fields 0
and 1 are not deprecated maps to the record's field at index 0 (so a
string that is itself a field 0 resolves to itself), provided no other
record also lists that name; and a name listed only by deprecated
records does not resolve. -/
theorem c1_amended (lines : List AliasRec) (x : String) :
    (∀ r, r ∈ lines → recDeprecated r = false → x ∈ recKeys r →
      (∀ r2, r2 ∈ lines → r2 ≠ r → ¬x ∈ recKeys r2) →
      parse_propertyaliases lines x = some r.fld0) ∧
    ((∀ r, r ∈ lines → x ∈ recKeys r → recDeprecated r = true) →
      parse_propertyaliases lines x = none) := by
  constructor
  · intro r hr hdep hx honly
    obtain ⟨pre, post, rfl⟩ := List.append_of_mem hr
    unfold parse_propertyaliases
    rw [List.foldl_append]
    simp only [List.foldl_cons]
    apply foldl_alias_preserve
    · rw [aliasRecStep_mem _ r x hdep hx]
    · intro r2 hr2 hxr2 _
      by_cases he : r2 = r
      · rw [he]
      · exact absurd hxr2 (honly r2 (by
          rw [List.mem_append]
          right
          exact List.mem_cons_of_mem r hr2) he)
  · intro hall
    unfold parse_propertyaliases
    rw [foldl_alias_untouched lines _ x hall]

/-- Witness for C1 as amended: a non-deprecated record resolves its
abbreviation to its field 0, and a name listed only on a deprecated
record does not resolve. -/
theorem c1_amended_witness :
    parse_propertyaliases
        [⟨"Alphabetic", "Alpha", ["OtherAlpha"]⟩, ⟨"Script_Extensions", "scx", []⟩]
        ("Alpha") = some ("Alphabetic") ∧
    parse_propertyaliases
        [⟨"Alphabetic", "Alpha", ["OtherAlpha"]⟩, ⟨"Script_Extensions", "scx", []⟩]
        ("scx") = none :=
  ⟨(c1_amended _ ("Alpha")).1 ⟨"Alphabetic", "Alpha", ["OtherAlpha"]⟩ (by decide) (by decide)
      (by decide) (by decide),
    (c1_amended _ ("scx")).2 (by decide)⟩

end Colt

namespace Colt

/-!
### The UnicodeData normalizer (parseunicode.py lines 155-282)

The state machine is modelled with explicit object identity for the
Python dictionaries: the heap is a list of dicts, and each produced
record stores the index (reference) of its PROPERTIES dict.  This
captures three sharing effects of the source:
 - range-run expansion copies records with dataclasses.replace, which
   shares one PROPERTIES dict among the whole run;
 - gap filling reuses the single dict memoized by default_properties,
   shared by every gap-filled record of the whole run;
 - tail filling reuses the PROPERTIES dict of the last record.
The final overlay pass mutates dicts in place through those shared
references.

The three parsed input tables are abstracted as an environment:
alias is the (total) name-to-abbreviation mapping from
parse_propertyaliases, defaultOf gives the DEFAULT_VALUE attached to a
property abbreviation in parse_propertyvalue (range begin, range end,
raw default string), and binprops is the output of parse_properties
(range begin, range end, property name, third captured field).  A dict
lookup the script performs on a missing key would raise; the totality of
alias/defaultOf corresponds to the assumption that every looked-up name
is present, which holds for the real tables.  Main-table lines are given
pre-split: the parsed code point of field 0 and the remaining fields.
-/

/-- A Python dict from strings to optional strings: outer Option is key
presence, inner Option is the Python value (None or a string). -/
def PyDict : Type := String → Option (Option String)

def emptyDict : PyDict := fun _ => none

/-- One Python dict assignment d[k] = v where v may be None. -/
def pdset (d : PyDict) (k : String) (v : Option String) : PyDict :=
  fun x => if x = k then some v else d x

/-- parseunicode.py lines 155-170, in source order (Numeric_Value is
listed twice, and ISO_Comment is deprecated and skipped). -/
def UNICODE_DATA_PROPERTIES : List String :=
  ["Name", "General_Category", "Canonical_Combining_Class", "Bidi_Class",
   "Decomposition_Type", "Numeric_Type", "Numeric_Value", "Numeric_Value",
   "Bidi_Mirrored", "Unicode_1_Name", "ISO_Comment",
   "Simple_Uppercase_Mapping", "Simple_Lowercase_Mapping",
   "Simple_Titlecase_Mapping"]

structure Env where
  aliasOf : String → String
  defaultOf : String → Option (Nat × Nat × String)
  binprops : List ((Nat × Nat) × String × String)

/-- Model of default_to_true_default (parseunicode.py lines 190-199);
cp is the enclosing CODE_POINT captured by the closure. -/
def default_to_true_default (cp : Nat) : Option String → Option String
  | none => none
  | some d =>
    if d = "<code point>" then some (int_to_hex cp)
    else if d = "<none>" then none
    else if d = "NaN" then none
    else if d = "Unassigned" then some ("Cn")
    else some d

/-- Field resolution for one property column of an explicit record
(parseunicode.py lines 244-249): the raw field verbatim when non-empty,
else the converted default when the code point lies in the default's
range, else None. -/
def resolveField (env : Env) (cp : Nat) (abrv : String) (fi : String) : Option String :=
  if fi ≠ "" then some fi
  else
    match env.defaultOf abrv with
    | some (b, e, dv) =>
      if b ≤ cp ∧ cp ≤ e then default_to_true_default cp (some dv) else none
    | none => none

/-- The other_properties dict keys (parseunicode.py lines 228-231): the
abbreviation of every property of the binary property list. -/
def otherPropsKeys (env : Env) : List String :=
  env.binprops.map (fun bp => env.aliasOf bp.2.1)

/-- PROPERTIES.update(other_properties) (parseunicode.py line 252):
every binary-list abbreviation is written with the value N. -/
def applyOtherProps (env : Env) (d : PyDict) : PyDict :=
  (otherPropsKeys env).foldl (fun d2 k => pdset d2 k (some ("N"))) d

/-- The per-column loop of parseunicode.py lines 240-251, with the index
i running over UNICODE_DATA_PROPERTIES; accessing a missing field raises
(none). -/
def buildPropsLoop (env : Env) (cp : Nat) (fields : List String) :
    Nat → List String → PyDict → Option PyDict
  | _, [], dd => some dd
  | i, name :: rest, dd =>
    if name ∈ DEPRECATED_PROPERTIES then buildPropsLoop env cp fields (i + 1) rest dd
    else
      match fields[i]? with
      | none => none
      | some fi =>
        buildPropsLoop env cp fields (i + 1) rest
          (pdset dd (env.aliasOf name) (resolveField env cp (env.aliasOf name) fi))

/-- The full PROPERTIES dict of one explicit record, including the final
update with other_properties. -/
def buildPropsOpt (env : Env) (cp : Nat) (fields : List String) : Option PyDict :=
  (buildPropsLoop env cp fields 0 UNICODE_DATA_PROPERTIES emptyDict).map
    (applyOtherProps env)

/-- Model of the memoized default_properties (parseunicode.py lines
200-218): the per-property converted global default, ignoring the range
conditioning of the default.  cp is the CODE_POINT in scope at the first
call (the memoization makes later calls reuse it). -/
def default_properties_fn (env : Env) (cp : Nat) : PyDict :=
  UNICODE_DATA_PROPERTIES.foldl (fun dd name =>
    if name ∈ DEPRECATED_PROPERTIES then dd
    else
      pdset dd (env.aliasOf name)
        (match env.defaultOf (env.aliasOf name) with
         | some (_, _, dv) => default_to_true_default cp (some dv)
         | none => none)) emptyDict

/-- current.get("Name") followed by .endswith: raises (none) when the
Name key is missing or its value is None. -/
def nameValue (env : Env) (d : PyDict) : Option String :=
  match d (env.aliasOf "Name") with
  | some (some s) => some s
  | _ => none

/-- Python str.endswith on the underlying characters. -/
def strEndsWith (s suf : String) : Bool := suf.data.isSuffixOf s.data

/-- A list of n elements f a, f (a+1), ..., built with a bare Nat.rec so
that the kernel can take its cells one at a time (the equation-compiler
translation through brecOn forces the whole list at once, which matters
when a theorem evaluates a run on concrete input: the tail fill below
builds a list of 0x110000 entries of which only a few are inspected). -/
def lazyGen {α : Type} (f : Int → α) (a : Int) (n : Nat) : List α :=
  Nat.rec (motive := fun _ => Int → List α)
    (fun _ => []) (fun _ ih a2 => f a2 :: ih (a2 + 1)) n a

/-- Python range(a, a+n) over the integers. -/
def pyRange (a : Int) (n : Nat) : List Int := lazyGen (fun i => i) a n

/-- Python range(a, b) over the integers. -/
def pyRangeI (a b : Int) : List Int := pyRange a (b - a).toNat

/-- Python range(a, b) over the naturals. -/
def pyRangeN (a b : Nat) : List Nat := lazyGen Int.toNat (a : Int) (b - a)

/-- The loop state: the growing CODE_POINT_LIST as pairs of code point
value and dict reference, the heap of allocated dicts, and the
functools.cache cell of default_properties. -/
structure St where
  recs : List (Int × Nat)
  heap : List PyDict
  cache : Option Nat

/-- The previous_cp read at the top of an iteration:
CODE_POINT_LIST[-1].CODE_POINT.value. -/
def prevOf (st : St) : Int := ((st.recs.getLast?).map Prod.fst).getD 0

/-- CODE_POINT_LIST = [CodePointInfo(CodePoint(-1), dict())]
(parseunicode.py line 223): the sentinel relies on CodePoint accepting
the value -1. -/
def initSt : Option St :=
  (CodePoint_init (-1)).map (fun v =>
    { recs := [(v, 0)], heap := [emptyDict], cache := none })

/-- One iteration of the main loop of parse_unicodedata (lines 234-269)
on a pre-split line (code point value, fields after split.pop(0)).
none models an exception: a code point above the maximum (raised by
CodePoint.from_str), a missing field column, or calling .endswith on a
missing or None Name. -/
def udStep (env : Env) (st : St) (line : Nat × List String) : Option St :=
  if line.1 > maxCodePoint then none
  else
    match buildPropsOpt env line.1 line.2 with
    | none => none
    | some props =>
      let cp : Int := line.1
      let prev : Int := prevOf st
      let r := st.heap.length
      let heap1 := st.heap ++ [props]
      if cp ≠ prev + 1 then
        match nameValue env props with
        | none => none
        | some nm =>
          if strEndsWith nm (", Last>") then
            some { recs := st.recs ++ (pyRangeI prev cp).map (fun i => (i + 1, r)),
                   heap := heap1, cache := st.cache }
          else
            match st.cache with
            | some cr =>
              some { recs := st.recs ++ (pyRangeI (prev + 1) cp).map (fun i => (i, cr))
                       ++ [(cp, r)],
                     heap := heap1, cache := st.cache }
            | none =>
              if (pyRangeI (prev + 1) cp).isEmpty then
                some { recs := st.recs ++ [(cp, r)], heap := heap1, cache := none }
              else
                some { recs := st.recs
                         ++ (pyRangeI (prev + 1) cp).map (fun i => (i, heap1.length))
                         ++ [(cp, r)],
                       heap := heap1 ++ [default_properties_fn env line.1],
                       cache := some heap1.length }
      else
        some { recs := st.recs ++ [(cp, r)], heap := heap1, cache := st.cache }

/-- The main loop over all lines. -/
def udFold (env : Env) : St → List (Nat × List String) → Option St
  | st, [] => some st
  | st, l :: ls =>
    match udStep env st l with
    | none => none
    | some st2 => udFold env st2 ls

/-- The tail-fill loop (parseunicode.py lines 270-272): while the list
has at most max_code_point()+1 entries, append an entry whose code point
is the current length minus one, sharing the last record's dict. -/
def tailFill (st : St) : St :=
  let L := st.recs.length
  let lr := ((st.recs.getLast?).map Prod.snd).getD 0
  { st with
    recs := st.recs ++ lazyGen (fun i => (i, lr)) ((L : Int) - 1) ((maxCodePoint + 2) - L) }

/-- List indexing, written with a bare Nat.rec for the same lazy-kernel
reason as lazyGen; it agrees with the standard indexing (pyNth_eq). -/
def pyNth {α : Type} (l : List α) (i : Nat) : Option α :=
  Nat.rec (motive := fun _ => List α → Option α)
    (fun l2 => l2.head?)
    (fun _ ih l2 => List.casesOn l2 none (fun _ t => ih t)) i l

/-- The body of the overlay loop: CODE_POINT_LIST[j].PROPERTIES[abrv] = 'Y'
through the shared dict reference; an out-of-range index raises (none). -/
def overlayWrite (recs : List (Int × Nat)) (abrv : String)
    (acc : Option (List PyDict)) (j : Nat) : Option (List PyDict) :=
  match acc with
  | none => none
  | some h =>
    match pyNth recs j with
    | none => none
    | some e =>
      match pyNth h e.2 with
      | none => none
      | some d => some (h.set e.2 (pdset d abrv (some ("Y"))))

/-- One entry of the overlay pass (parseunicode.py lines 276-280):
write Y into the dict referenced by every record whose index lies in the
entry's range. -/
def overlayEntry (env : Env) (recs : List (Int × Nat)) (heap : List PyDict)
    (bp : (Nat × Nat) × String × String) : Option (List PyDict) :=
  (pyRangeN bp.1.1 (bp.1.2 + 1)).foldl (overlayWrite recs (env.aliasOf bp.2.1))
    (some heap)

/-- The overlay pass over all binary property entries. -/
def overlayAll (env : Env) (recs : List (Int × Nat)) :
    List PyDict → List ((Nat × Nat) × String × String) → Option (List PyDict)
  | heap, [] => some heap
  | heap, bp :: bps =>
    match overlayEntry env recs heap bp with
    | none => none
    | some heap2 => overlayAll env recs heap2 bps

/-- Model of parse_unicodedata (parseunicode.py lines 180-282): run the
main loop from the sentinel state, tail-fill, drop the sentinel, then
run the binary overlay pass; the result is the final record list and the
final heap. -/
def parse_unicodedata (env : Env) (lines : List (Nat × List String)) :
    Option (List (Int × Nat) × List PyDict) :=
  match initSt with
  | none => none
  | some s0 =>
    match udFold env s0 lines with
    | none => none
    | some st =>
      let st2 := tailFill st
      let recs := st2.recs.drop 1
      match overlayAll env recs st2.heap env.binprops with
      | none => none
      | some heap2 => some (recs, heap2)

/-- Model of CodePointInfo.get (parseunicode.py lines 177-178) on entry
j of the result: the record's dict looked up at the abbreviation of the
property; none when the record or the key is missing (a KeyError). -/
def lookupProp (env : Env) (t : List (Int × Nat) × List PyDict) (j : Nat)
    (p : String) : Option (Option String) :=
  match pyNth t.1 j with
  | none => none
  | some e =>
    match pyNth t.2 e.2 with
    | none => none
    | some d => d (env.aliasOf p)

end Colt

namespace Colt

/-! ### Concrete environments used by counterexamples and witnesses -/

/-- A small name-to-abbreviation table with the standard UCD
abbreviations for the main-table columns and two binary properties. -/
def ALIAS_LIST : List (String × String) :=
  [("Name", "na"), ("General_Category", "gc"), ("Canonical_Combining_Class", "ccc"),
   ("Bidi_Class", "bc"), ("Decomposition_Type", "dt"), ("Numeric_Type", "nt"),
   ("Numeric_Value", "nv"), ("Bidi_Mirrored", "Bidi_M"), ("Unicode_1_Name", "na1"),
   ("Simple_Uppercase_Mapping", "suc"), ("Simple_Lowercase_Mapping", "slc"),
   ("Simple_Titlecase_Mapping", "stc"), ("White_Space", "WSpace"), ("Alphabetic", "Alpha")]

def stdAlias (s : String) : String := (ALIAS_LIST.lookup s).getD s

/-- Fourteen main-table fields with the given Name and General_Category
and representative values elsewhere. -/
def stdFields (nm gcv : String) : List String :=
  [nm, gcv, "0", "L", "", "", "", "", "N", "", "", "", "", ""]

/-- Environment for C2: no defaults, two binary properties, of which
White_Space covers only code point 1 and Alphabetic only code point 0. -/
def envC2 : Env :=
  { aliasOf := stdAlias, defaultOf := fun _ => none,
    binprops := [((1, 1), "White_Space", "Zs"), ((0, 0), "Alphabetic", "Lu")] }

/-- Main-table lines for C2: explicit records at 0, 3 and 6, so that
code points 1, 2, 4, 5 are gap-filled. -/
def linesC2 : List (Nat × List String) :=
  [(0, stdFields ("A") ("Lu")), (3, stdFields ("B") ("Lu")), (6, stdFields ("C") ("Lu"))]

/-- Claim C2 (code bug): in the run on linesC2, every property of the
Binary Property List that is not a main-table column should by the claim
be N on every record outside the entry ranges.  Instead, the gap-filled
record 4 — outside the White_Space range, which covers only code point
1 — reports White_Space = Y, because all gap-filled records share the
single dict memoized by default_properties and the overlay pass for code
point 1 mutated it; and the gap-filled record 2 has no Alphabetic key at
all (its CodePointInfo.get raises KeyError), because default_properties
never seeds the binary-list properties with N. -/
theorem c2_binary_seed_bug :
    (parse_unicodedata envC2 linesC2).map
      (fun t => (lookupProp envC2 t 4 ("White_Space"), lookupProp envC2 t 2 ("Alphabetic"))) =
    some (some (some ("Y")), none) := by decide

/-- Environment for the C3 counterexample: the general-category property
carries no range-conditioned default at all. -/
def envC3 : Env :=
  { aliasOf := stdAlias, defaultOf := fun _ => none, binprops := [] }

/-- Main-table lines for the C3 counterexample: explicit records at 0
and 2, so that code point 1 is gap-filled. -/
def linesC3 : List (Nat × List String) :=
  [(0, stdFields ("A") ("Lu")), (2, stdFields ("B") ("Lu"))]

/-- Claim C3 (counterexample): code point 1 has no explicit record and
the general-category property has no range-conditioned default
applicable to it (it has no default at all), yet its gap-filled record
resolves General_Category to the absent value None — key present, value
None — and not to the unassigned code Cn as the claim states. -/
theorem c3_counterexample :
    (parse_unicodedata envC3 linesC3).map
      (fun t => lookupProp envC3 t 1 ("General_Category")) = some (some none) ∧
    (some (none : Option String) : Option (Option String)) ≠ some (some ("Cn")) := by
  constructor
  · decide
  · decide

/-- Claim C10: the CodePoint constructor raises only above the maximum:
every integer value at most 0x10FFFF — in particular every negative
value — is accepted and stored unchanged, and the normalizer relies on
this by starting its record list with a CodePoint(-1) sentinel. -/
theorem c10_no_lower_bound (v : Int) (h : v ≤ (maxCodePoint : Int)) :
    CodePoint_init v = some v ∧
    initSt.map (fun s => s.recs.map Prod.fst) = some [(-1 : Int)] := by
  constructor
  · unfold CodePoint_init
    rw [if_neg (by omega)]
  · decide

/-- Witness for C10 at the sentinel value -1 itself. -/
theorem c10_no_lower_bound_witness :
    ((-1 : Int) ≤ (maxCodePoint : Int)) ∧
    (CodePoint_init (-1) = some (-1) ∧
      initSt.map (fun s => s.recs.map Prod.fst) = some [(-1 : Int)]) :=
  ⟨by decide, c10_no_lower_bound (-1) (by decide)⟩

end Colt

namespace Colt

/-! ### Generator and indexing lemmas -/

lemma pyNth_eq {α : Type} (i : Nat) (l : List α) : pyNth l i = l[i]? := by
  induction i generalizing l with
  | zero =>
    cases l with
    | nil => rw [List.getElem?_nil]; rfl
    | cons a t => rw [List.getElem?_cons_zero]; rfl
  | succ i ih =>
    cases l with
    | nil => rw [List.getElem?_nil]; rfl
    | cons a t =>
      rw [List.getElem?_cons_succ, ← ih t]
      rfl

lemma lazyGen_zero {α : Type} (f : Int → α) (a : Int) : lazyGen f a 0 = [] := rfl

lemma lazyGen_succ {α : Type} (f : Int → α) (a : Int) (n : Nat) :
    lazyGen f a (n + 1) = f a :: lazyGen f (a + 1) n := rfl

lemma lazyGen_length {α : Type} (f : Int → α) (a : Int) (n : Nat) :
    (lazyGen f a n).length = n := by
  induction n generalizing a with
  | zero => rfl
  | succ n ih => rw [lazyGen_succ, List.length_cons, ih]

lemma lazyGen_getElem? {α : Type} (f : Int → α) (n : Nat) (a : Int) (k : Nat) :
    (lazyGen f a n)[k]? = if k < n then some (f (a + k)) else none := by
  induction n generalizing a k with
  | zero => simp [lazyGen_zero]
  | succ n ih =>
    rw [lazyGen_succ]
    cases k with
    | zero => simp
    | succ k =>
      rw [List.getElem?_cons_succ, ih (a + 1) k]
      have h1 : a + 1 + (k : Int) = a + (k + 1 : Nat) := by push_cast; ring
      by_cases h : k < n
      · rw [if_pos h, if_pos (by omega), h1]
      · rw [if_neg h, if_neg (by omega)]

lemma pyRange_length (a : Int) (n : Nat) : (pyRange a n).length = n :=
  lazyGen_length _ a n

lemma pyRange_getElem? (a : Int) (n : Nat) (k : Nat) :
    (pyRange a n)[k]? = if k < n then some (a + k) else none :=
  lazyGen_getElem? _ n a k

lemma pyRangeI_length (a b : Int) : (pyRangeI a b).length = (b - a).toNat :=
  pyRange_length a _

lemma pyRangeI_getElem? (a b : Int) (k : Nat) :
    (pyRangeI a b)[k]? = if k < (b - a).toNat then some (a + k) else none :=
  pyRange_getElem? a _ k

lemma pyRangeN_length (a b : Nat) : (pyRangeN a b).length = b - a :=
  lazyGen_length _ _ _

lemma pyRangeN_getElem? (a b : Nat) (k : Nat) :
    (pyRangeN a b)[k]? = if k < b - a then some (a + k) else none := by
  unfold pyRangeN
  rw [lazyGen_getElem?]
  by_cases h : k < b - a
  · rw [if_pos h, if_pos h]
    simp only [Option.some.injEq]
    omega
  · rw [if_neg h, if_neg h]

lemma pyRangeN_mem (a b j : Nat) (h : j ∈ pyRangeN a b) : a ≤ j ∧ j < b := by
  obtain ⟨k, hk, hkj⟩ := List.getElem_of_mem h
  have h2 := pyRangeN_getElem? a b k
  rw [List.getElem?_eq_getElem hk, hkj] at h2
  rw [pyRangeN_length] at hk
  rw [if_pos hk] at h2
  have h3 : j = a + k := by
    have := Option.some.inj h2
    omega
  omega

/-! ### Loop invariant of the normalizer -/

/-- The code point of the last line, or -1 before any line (the value of
previous_cp seen by the next iteration). -/
def lastCp (lines : List (Nat × List String)) : Int :=
  match lines.getLast? with
  | some l => l.1
  | none => -1

lemma lastCp_nil : lastCp [] = -1 := rfl

lemma lastCp_concat (lines : List (Nat × List String)) (l : Nat × List String) :
    lastCp (lines ++ [l]) = l.1 := by
  unfold lastCp
  rw [List.getLast?_concat]

lemma lastCp_ge (lines : List (Nat × List String)) : -1 ≤ lastCp lines := by
  unfold lastCp
  cases h : lines.getLast? with
  | none => exact le_refl _
  | some l =>
    show (-1 : Int) ≤ (l.1 : Int)
    omega

/-- Whether a line would take the range-run branch: its resolved
PROPERTIES exist and their Name value ends in the Last suffix. -/
def isLastRec (env : Env) (l : Nat × List String) : Bool :=
  match buildPropsOpt env l.1 l.2 with
  | some d =>
    match nameValue env d with
    | some nm => strEndsWith nm (", Last>")
    | none => false
  | none => false

/-- The dict object referenced by record j of the state. -/
def dictAt (st : St) (j : Nat) : Option PyDict :=
  match st.recs[j]? with
  | some e => st.heap[e.2]?
  | none => none

/-- Invariant of the main loop after processing the given lines in
order: the record list is the contiguous block of code points -1 ..
lastCp; each explicit line's record holds its resolved PROPERTIES dict;
each code point strictly between two consecutive lines holds the
following line's dict when that line is a Last range-run record and the
memoized default dict otherwise. -/
structure Inv (env : Env) (st : St) (lines : List (Nat × List String)) : Prop where
  contig : ∀ j, j < st.recs.length → (st.recs[j]?).map Prod.fst = some ((j : Int) - 1)
  len : (st.recs.length : Int) = lastCp lines + 2
  cpmax : lastCp lines ≤ (maxCodePoint : Int)
  cpLe : ∀ (k : Nat) (l : Nat × List String), lines[k]? = some l →
    (l.1 : Int) ≤ lastCp lines
  refsB : ∀ (j : Nat) (e : Int × Nat), st.recs[j]? = some e → e.2 < st.heap.length
  cacheB : ∀ cr, st.cache = some cr → cr < st.heap.length ∧
    ∃ c, st.heap[cr]? = some (default_properties_fn env c)
  explicitD : ∀ (k : Nat) (l : Nat × List String), lines[k]? = some l →
    ∀ d, buildPropsOpt env l.1 l.2 = some d → dictAt st (l.1 + 1) = some d
  gapD : ∀ (k : Nat) (l1 l2 : Nat × List String), lines[k]? = some l1 →
    lines[k + 1]? = some l2 →
    ∀ v : Nat, l1.1 < v → v < l2.1 →
      (isLastRec env l2 = true →
        ∀ d, buildPropsOpt env l2.1 l2.2 = some d → dictAt st (v + 1) = some d) ∧
      (isLastRec env l2 = false →
        ∃ c, dictAt st (v + 1) = some (default_properties_fn env c))

lemma inv_init (env : Env) (s0 : St) (h : initSt = some s0) : Inv env s0 [] := by
  have hs : s0 = { recs := [(-1, 0)], heap := [emptyDict], cache := none } := by
    have h2 : initSt = some { recs := [((-1 : Int), 0)], heap := [emptyDict], cache := none } := rfl
    rw [h2] at h
    exact (Option.some.inj h).symm
  subst hs
  constructor
  · intro j hj
    simp only [List.length_cons, List.length_nil] at hj
    have hj0 : j = 0 := by omega
    subst hj0
    rfl
  · rfl
  · rw [lastCp_nil]
    omega
  · intro k l hl
    simp at hl
  · intro j e he
    simp only [List.length_cons, List.length_nil]
    cases j with
    | zero =>
      rw [List.getElem?_cons_zero] at he
      have h2 : e = ((-1 : Int), 0) := (Option.some.inj he).symm
      rw [h2]
      omega
    | succ j =>
      rw [List.getElem?_cons_succ, List.getElem?_nil] at he
      simp at he
  · intro cr hcr
    simp at hcr
  · intro k l hl
    simp at hl
  · intro k l1 l2 h1
    simp at h1

end Colt

namespace Colt

/-! ### Branch equations of udStep -/

lemma prevOf_eq_lastCp (env : Env) (st : St) (lines : List (Nat × List String))
    (hinv : Inv env st lines) : prevOf st = lastCp lines := by
  have hlen := hinv.len
  have hge := lastCp_ge lines
  have hne : st.recs.length ≥ 1 := by omega
  unfold prevOf
  rw [List.getLast?_eq_getElem?]
  have hc := hinv.contig (st.recs.length - 1) (by omega)
  cases hx : st.recs[st.recs.length - 1]? with
  | none =>
    rw [hx] at hc
    simp at hc
  | some e =>
    rw [hx] at hc
    simp only [Option.map_some', Option.some.injEq] at hc
    simp only [hx, Option.map_some', Option.getD_some]
    rw [hc]
    push_cast [hne]
    omega

lemma udStep_run (env : Env) (st : St) (l : Nat × List String) (props : PyDict)
    (nm : String)
    (hmax : ¬l.1 > maxCodePoint)
    (hbp : buildPropsOpt env l.1 l.2 = some props)
    (hne : (l.1 : Int) ≠ prevOf st + 1)
    (hnm : nameValue env props = some nm)
    (hlast : strEndsWith nm (", Last>") = true) :
    udStep env st l = some
      { recs := st.recs ++ (pyRangeI (prevOf st) l.1).map (fun i => (i + 1, st.heap.length)),
        heap := st.heap ++ [props], cache := st.cache } := by
  unfold udStep
  rw [if_neg hmax]
  simp only [hbp, hnm, hlast]
  rw [if_pos hne, if_pos trivial]

lemma udStep_contig (env : Env) (st : St) (l : Nat × List String) (props : PyDict)
    (hmax : ¬l.1 > maxCodePoint)
    (hbp : buildPropsOpt env l.1 l.2 = some props)
    (hc : (l.1 : Int) = prevOf st + 1) :
    udStep env st l = some
      { recs := st.recs ++ [((l.1 : Int), st.heap.length)],
        heap := st.heap ++ [props], cache := st.cache } := by
  unfold udStep
  rw [if_neg hmax]
  simp only [hbp]
  rw [if_neg (not_not_intro hc)]

lemma udStep_gap_cached (env : Env) (st : St) (l : Nat × List String) (props : PyDict)
    (nm : String) (cr : Nat)
    (hmax : ¬l.1 > maxCodePoint)
    (hbp : buildPropsOpt env l.1 l.2 = some props)
    (hne : (l.1 : Int) ≠ prevOf st + 1)
    (hnm : nameValue env props = some nm)
    (hlast : strEndsWith nm (", Last>") = false)
    (hcache : st.cache = some cr) :
    udStep env st l = some
      { recs := st.recs ++ (pyRangeI (prevOf st + 1) l.1).map (fun i => (i, cr))
          ++ [((l.1 : Int), st.heap.length)],
        heap := st.heap ++ [props], cache := st.cache } := by
  unfold udStep
  rw [if_neg hmax]
  simp only [hbp, hnm, hlast, hcache]
  rw [if_pos hne, if_neg (by simp)]

lemma udStep_gap_alloc (env : Env) (st : St) (l : Nat × List String) (props : PyDict)
    (nm : String)
    (hmax : ¬l.1 > maxCodePoint)
    (hbp : buildPropsOpt env l.1 l.2 = some props)
    (hne : (l.1 : Int) ≠ prevOf st + 1)
    (hnm : nameValue env props = some nm)
    (hlast : strEndsWith nm (", Last>") = false)
    (hcache : st.cache = none)
    (hgap : ¬(pyRangeI (prevOf st + 1) l.1).isEmpty = true) :
    udStep env st l = some
      { recs := st.recs
          ++ (pyRangeI (prevOf st + 1) l.1).map (fun i => (i, st.heap.length + 1))
          ++ [((l.1 : Int), st.heap.length)],
        heap := (st.heap ++ [props]) ++ [default_properties_fn env l.1],
        cache := some (st.heap.length + 1) } := by
  unfold udStep
  rw [if_neg hmax]
  simp only [hbp, hnm, hlast, hcache]
  rw [if_pos hne, if_neg (by simp), if_neg hgap]
  simp [List.length_append]

end Colt

namespace Colt

/-! ### Shared helpers for the invariant preservation proof -/

lemma getElem?_some_lt {α : Type} {l : List α} {k : Nat} {x : α}
    (h : l[k]? = some x) : k < l.length := by
  rcases List.getElem?_eq_some.mp h with ⟨h1, -⟩
  exact h1

lemma contig_append (recs newE : List (Int × Nat))
    (hc : ∀ j, j < recs.length → (recs[j]?).map Prod.fst = some ((j : Int) - 1))
    (hn : ∀ (t : Nat) (e : Int × Nat), newE[t]? = some e →
      e.1 = (recs.length : Int) + t - 1) :
    ∀ j, j < (recs ++ newE).length →
      ((recs ++ newE)[j]?).map Prod.fst = some ((j : Int) - 1) := by
  intro j hj
  by_cases h : j < recs.length
  · rw [List.getElem?_append_left h]
    exact hc j h
  · rw [List.getElem?_append_right (by omega)]
    rw [List.length_append] at hj
    have ht : j - recs.length < newE.length := by omega
    cases hx : newE[j - recs.length]? with
    | none =>
      rw [List.getElem?_eq_getElem ht] at hx
      exact absurd hx (by simp)
    | some e =>
      have he := hn (j - recs.length) e hx
      simp only [Option.map_some', Option.some.injEq]
      omega

lemma refsB_append (recs newE : List (Int × Nat)) (m m2 : Nat)
    (hold : ∀ (j : Nat) (e : Int × Nat), recs[j]? = some e → e.2 < m)
    (hle : m ≤ m2)
    (hnew : ∀ (t : Nat) (e : Int × Nat), newE[t]? = some e → e.2 < m2) :
    ∀ (j : Nat) (e : Int × Nat), (recs ++ newE)[j]? = some e → e.2 < m2 := by
  intro j e he
  by_cases h : j < recs.length
  · rw [List.getElem?_append_left h] at he
    exact lt_of_lt_of_le (hold j e he) hle
  · rw [List.getElem?_append_right (by omega)] at he
    exact hnew _ e he

lemma dictAt_extend (st : St) (newE : List (Int × Nat)) (newH : List PyDict)
    (href : ∀ (j : Nat) (e : Int × Nat), st.recs[j]? = some e → e.2 < st.heap.length)
    (j : Nat) (hj : j < st.recs.length) :
    dictAt { recs := st.recs ++ newE, heap := st.heap ++ newH, cache := st.cache } j =
      dictAt st j := by
  unfold dictAt
  simp only []
  rw [List.getElem?_append_left hj]
  cases hx : st.recs[j]? with
  | none => rfl
  | some e =>
    show (st.heap ++ newH)[e.2]? = st.heap[e.2]?
    exact List.getElem?_append_left (href j e hx)

lemma dictAt_extend2 (st : St) (newE : List (Int × Nat)) (newH : List PyDict)
    (c2 : Option Nat)
    (href : ∀ (j : Nat) (e : Int × Nat), st.recs[j]? = some e → e.2 < st.heap.length)
    (j : Nat) (hj : j < st.recs.length) :
    dictAt { recs := st.recs ++ newE, heap := st.heap ++ newH, cache := c2 } j =
      dictAt st j := by
  unfold dictAt
  simp only []
  rw [List.getElem?_append_left hj]
  cases hx : st.recs[j]? with
  | none => rfl
  | some e =>
    show (st.heap ++ newH)[e.2]? = st.heap[e.2]?
    exact List.getElem?_append_left (href j e hx)

lemma lines_append_cases (lines : List (Nat × List String)) (l : Nat × List String)
    (k : Nat) (x : Nat × List String) (h : (lines ++ [l])[k]? = some x) :
    (k < lines.length ∧ lines[k]? = some x) ∨ (k = lines.length ∧ x = l) := by
  by_cases hk : k < lines.length
  · left
    refine ⟨hk, ?_⟩
    rw [List.getElem?_append_left hk] at h
    exact h
  · right
    have hk2 := getElem?_some_lt h
    rw [List.length_append, List.length_cons, List.length_nil] at hk2
    have hk3 : k = lines.length := by omega
    subst hk3
    rw [List.getElem?_concat_length] at h
    exact ⟨rfl, (Option.some.inj h).symm⟩

lemma lastCp_getElem (lines : List (Nat × List String)) (x : Nat × List String)
    (h : lines[lines.length - 1]? = some x) : (x.1 : Int) = lastCp lines := by
  unfold lastCp
  rw [List.getLast?_eq_getElem?, h]

lemma lastLine_cp (lines : List (Nat × List String)) (k : Nat) (x : Nat × List String)
    (hk : k + 1 = lines.length) (h : lines[k]? = some x) :
    (x.1 : Int) = lastCp lines := by
  apply lastCp_getElem
  have h2 : lines.length - 1 = k := by omega
  rw [h2]
  exact h

end Colt

namespace Colt

lemma dictAt_new (st : St) (newE : List (Int × Nat)) (newH : List PyDict)
    (c2 : Option Nat) (j : Nat) (e : Int × Nat)
    (hj : st.recs.length ≤ j)
    (hE : newE[j - st.recs.length]? = some e)
    (d : PyDict) (hd : (st.heap ++ newH)[e.2]? = some d) :
    dictAt { recs := st.recs ++ newE, heap := st.heap ++ newH, cache := c2 } j = some d := by
  unfold dictAt
  simp only []
  rw [List.getElem?_append_right hj, hE]
  exact hd

/-- Invariant preservation for the contiguous and range-run branches:
the appended entries are the code points lastCp+1 .. l.1, all referencing
the new record's PROPERTIES dict.  The hypothesis hOR (no gap, or the
line is a Last record) rules out the genuine-gap branch. -/
lemma inv_run (env : Env) (st : St) (lines : List (Nat × List String))
    (l : Nat × List String) (props : PyDict)
    (hinv : Inv env st lines)
    (hgt : lastCp lines < (l.1 : Int))
    (hmax2 : l.1 ≤ maxCodePoint)
    (hbp : buildPropsOpt env l.1 l.2 = some props)
    (hOR : (l.1 : Int) = lastCp lines + 1 ∨ isLastRec env l = true) :
    Inv env
      { recs := st.recs ++ (pyRangeI (lastCp lines) l.1).map
          (fun i => (i + 1, st.heap.length)),
        heap := st.heap ++ [props], cache := st.cache }
      (lines ++ [l]) := by
  have hlen := hinv.len
  have hge := lastCp_ge lines
  have hNlen : ((pyRangeI (lastCp lines) l.1).map
      (fun i => (i + 1, st.heap.length))).length = ((l.1 : Int) - lastCp lines).toNat := by
    rw [List.length_map, pyRangeI_length]
  have hNget : ∀ (t : Nat) (e : Int × Nat),
      ((pyRangeI (lastCp lines) l.1).map (fun i => (i + 1, st.heap.length)))[t]? = some e →
      e.1 = lastCp lines + t + 1 ∧ e.2 = st.heap.length := by
    intro t e he
    rw [List.getElem?_map, pyRangeI_getElem?] at he
    by_cases h : t < ((l.1 : Int) - lastCp lines).toNat
    · rw [if_pos h] at he
      simp only [Option.map_some', Option.some.injEq] at he
      rw [← he]
      exact ⟨by ring, rfl⟩
    · rw [if_neg h] at he
      simp at he
  have hNgetAt : ∀ t : Nat, t < ((l.1 : Int) - lastCp lines).toNat →
      ((pyRangeI (lastCp lines) l.1).map (fun i => (i + 1, st.heap.length)))[t]? =
        some (lastCp lines + t + 1, st.heap.length) := by
    intro t ht
    rw [List.getElem?_map, pyRangeI_getElem?, if_pos ht]
    rfl
  have hcast : (((l.1 : Int) - lastCp lines).toNat : Int) = (l.1 : Int) - lastCp lines :=
    Int.toNat_of_nonneg (by omega)
  refine ⟨?_, ?_, ?_, ?_, ?_, ?_, ?_, ?_⟩
  · apply contig_append st.recs _ hinv.contig
    intro t e he
    have h2 := hNget t e he
    omega
  · show ((st.recs ++ _).length : Int) = lastCp (lines ++ [l]) + 2
    rw [lastCp_concat, List.length_append, hNlen]
    push_cast
    omega
  · rw [lastCp_concat]
    show (l.1 : Int) ≤ (maxCodePoint : Int)
    omega
  · intro k x hx
    rw [lastCp_concat]
    rcases lines_append_cases lines l k x hx with ⟨hk, hold⟩ | ⟨hk, rfl⟩
    · have h2 := hinv.cpLe k x hold
      omega
    · omega
  · apply refsB_append st.recs _ st.heap.length (st.heap ++ [props]).length hinv.refsB
      (by rw [List.length_append]; omega)
    intro t e he
    have h2 := hNget t e he
    rw [List.length_append]
    simp only [List.length_cons, List.length_nil]
    omega
  · intro cr hcr
    obtain ⟨hb, c, hc⟩ := hinv.cacheB cr hcr
    refine ⟨by rw [List.length_append]; omega, c, ?_⟩
    rw [List.getElem?_append_left hb]
    exact hc
  · intro k x hx d hd
    rcases lines_append_cases lines l k x hx with ⟨hk, hold⟩ | ⟨hk, rfl⟩
    · have hle := hinv.cpLe k x hold
      have hidx : x.1 + 1 < st.recs.length := by omega
      rw [dictAt_extend st _ [props] hinv.refsB _ hidx]
      exact hinv.explicitD k x hold d hd
    · have hdp : d = props := by
        rw [hbp] at hd
        exact (Option.some.inj hd).symm
      rw [hdp]
      have hj : st.recs.length ≤ x.1 + 1 := by omega
      apply dictAt_new st _ [props] st.cache (x.1 + 1)
        (lastCp lines + ((x.1 + 1 - st.recs.length : Nat) : Int) + 1, st.heap.length) hj
      · exact hNgetAt (x.1 + 1 - st.recs.length) (by omega)
      · show (st.heap ++ [props])[st.heap.length]? = some props
        rw [List.getElem?_concat_length]
  · intro k l1 l2 h1 h2 v hv1 hv2
    rcases lines_append_cases lines l (k + 1) l2 h2 with ⟨hk2, hold2⟩ | ⟨hk2, heq⟩
    · have hk1 : k < lines.length := by omega
      have hold1 : lines[k]? = some l1 := by
        rcases lines_append_cases lines l k l1 h1 with ⟨-, h⟩ | ⟨hke, -⟩
        · exact h
        · omega
      have hle := hinv.cpLe (k + 1) l2 hold2
      have hidx : v + 1 < st.recs.length := by omega
      constructor
      · intro hl d hd
        rw [dictAt_extend st _ [props] hinv.refsB _ hidx]
        exact (hinv.gapD k l1 l2 hold1 hold2 v hv1 hv2).1 hl d hd
      · intro hl
        obtain ⟨c, hc⟩ := (hinv.gapD k l1 l2 hold1 hold2 v hv1 hv2).2 hl
        exact ⟨c, by rw [dictAt_extend st _ [props] hinv.refsB _ hidx]; exact hc⟩
    · have hold1 : lines[k]? = some l1 := by
        rcases lines_append_cases lines l k l1 h1 with ⟨-, h⟩ | ⟨hke, -⟩
        · exact h
        · omega
      have hl1cp : (l1.1 : Int) = lastCp lines := lastLine_cp lines k l1 hk2 hold1
      rw [heq] at hv2
      have hj : st.recs.length ≤ v + 1 := by omega
      constructor
      · intro hl d hd
        rw [heq] at hd
        have hdp : d = props := by
          rw [hbp] at hd
          exact (Option.some.inj hd).symm
        rw [hdp]
        apply dictAt_new st _ [props] st.cache (v + 1)
          (lastCp lines + ((v + 1 - st.recs.length : Nat) : Int) + 1, st.heap.length) hj
        · exact hNgetAt (v + 1 - st.recs.length) (by omega)
        · show (st.heap ++ [props])[st.heap.length]? = some props
          rw [List.getElem?_concat_length]
      · intro hl
        rw [heq] at hl
        rcases hOR with hc1 | hc1
        · omega
        · rw [hc1] at hl
          exact absurd hl (by simp)

end Colt

namespace Colt

/-- Invariant preservation for the genuine-gap branch: the gap code
points lastCp+1 .. l.1-1 all reference the dict at cr, which holds the
memoized default properties; the line's own entry references its fresh
PROPERTIES dict. -/
lemma inv_gap (env : Env) (st : St) (lines : List (Nat × List String))
    (l : Nat × List String) (props : PyDict) (newH : List PyDict)
    (cr : Nat) (c : Nat) (newC : Option Nat)
    (hinv : Inv env st lines)
    (hne2 : lastCp lines + 2 ≤ (l.1 : Int))
    (hmax2 : l.1 ≤ maxCodePoint)
    (hbp : buildPropsOpt env l.1 l.2 = some props)
    (hlast : isLastRec env l = false)
    (hcrB : cr < (st.heap ++ ([props] ++ newH)).length)
    (hcrD : (st.heap ++ ([props] ++ newH))[cr]? = some (default_properties_fn env c))
    (hC : ∀ cr2, newC = some cr2 → cr2 < (st.heap ++ ([props] ++ newH)).length ∧
      ∃ c2, (st.heap ++ ([props] ++ newH))[cr2]? = some (default_properties_fn env c2)) :
    Inv env
      { recs := st.recs ++ ((pyRangeI (lastCp lines + 1) l.1).map (fun i => (i, cr))
          ++ [((l.1 : Int), st.heap.length)]),
        heap := st.heap ++ ([props] ++ newH), cache := newC }
      (lines ++ [l]) := by
  have hlen := hinv.len
  have hge := lastCp_ge lines
  have hGlen : ((pyRangeI (lastCp lines + 1) l.1).map (fun i => (i, cr))).length =
      ((l.1 : Int) - (lastCp lines + 1)).toNat := by
    rw [List.length_map, pyRangeI_length]
  have hGcast : ((((l.1 : Int) - (lastCp lines + 1)).toNat : Nat) : Int) =
      (l.1 : Int) - lastCp lines - 1 :=
    by rw [Int.toNat_of_nonneg (by omega)]; ring
  have hGgetAt : ∀ t : Nat, t < ((l.1 : Int) - (lastCp lines + 1)).toNat →
      ((pyRangeI (lastCp lines + 1) l.1).map (fun i => (i, cr)))[t]? =
        some (lastCp lines + 1 + t, cr) := by
    intro t ht
    rw [List.getElem?_map, pyRangeI_getElem?, if_pos ht]
    rfl
  have hNget : ∀ (t : Nat) (e : Int × Nat),
      ((pyRangeI (lastCp lines + 1) l.1).map (fun i => (i, cr))
        ++ [((l.1 : Int), st.heap.length)])[t]? = some e →
      e.1 = lastCp lines + t + 1 ∧
        (e.2 = cr ∨ (e.2 = st.heap.length ∧ e.1 = (l.1 : Int))) := by
    intro t e he
    by_cases ht : t < ((l.1 : Int) - (lastCp lines + 1)).toNat
    · rw [List.getElem?_append_left (by rw [hGlen]; exact ht), hGgetAt t ht] at he
      have he2 := Option.some.inj he
      rw [← he2]
      refine ⟨by ring, Or.inl rfl⟩
    · rw [List.getElem?_append_right (by rw [hGlen]; omega)] at he
      have ht2 := getElem?_some_lt he
      simp only [List.length_cons, List.length_nil] at ht2
      rw [hGlen] at ht2 he
      have ht3 : t - ((l.1 : Int) - (lastCp lines + 1)).toNat = 0 := by omega
      rw [ht3, List.getElem?_cons_zero] at he
      have he2 := Option.some.inj he
      rw [← he2]
      refine ⟨by simp only []; omega, Or.inr ⟨rfl, rfl⟩⟩
  have hNlen : ((pyRangeI (lastCp lines + 1) l.1).map (fun i => (i, cr))
      ++ [((l.1 : Int), st.heap.length)]).length =
      ((l.1 : Int) - (lastCp lines + 1)).toNat + 1 := by
    rw [List.length_append, hGlen]
    rfl
  have hpropsAt : (st.heap ++ ([props] ++ newH))[st.heap.length]? = some props := by
    rw [List.getElem?_append_right (le_refl _)]
    simp
  refine ⟨?_, ?_, ?_, ?_, ?_, ?_, ?_, ?_⟩
  · apply contig_append st.recs _ hinv.contig
    intro t e he
    have h2 := hNget t e he
    omega
  · show ((st.recs ++ _).length : Int) = lastCp (lines ++ [l]) + 2
    rw [lastCp_concat, List.length_append, hNlen]
    push_cast
    omega
  · rw [lastCp_concat]
    show (l.1 : Int) ≤ (maxCodePoint : Int)
    omega
  · intro k x hx
    rw [lastCp_concat]
    rcases lines_append_cases lines l k x hx with ⟨hk, hold⟩ | ⟨hk, heq⟩
    · have h2 := hinv.cpLe k x hold
      omega
    · rw [heq]
  · apply refsB_append st.recs _ st.heap.length (st.heap ++ ([props] ++ newH)).length
      hinv.refsB (by rw [List.length_append]; omega)
    intro t e he
    rcases (hNget t e he).2 with h2 | h2
    · omega
    · rw [h2.1, List.length_append, List.length_append]
      simp only [List.length_cons, List.length_nil]
      omega
  · intro cr2 hcr2
    exact hC cr2 hcr2
  · intro k x hx d hd
    rcases lines_append_cases lines l k x hx with ⟨hk, hold⟩ | ⟨hk, heq⟩
    · have hle := hinv.cpLe k x hold
      have hidx : x.1 + 1 < st.recs.length := by omega
      rw [dictAt_extend2 st _ ([props] ++ newH) newC hinv.refsB _ hidx]
      exact hinv.explicitD k x hold d hd
    · rw [heq] at hd
      have hdp : d = props := by
        rw [hbp] at hd
        exact (Option.some.inj hd).symm
      rw [hdp, heq]
      have hj : st.recs.length ≤ l.1 + 1 := by omega
      apply dictAt_new st _ ([props] ++ newH) newC (l.1 + 1)
        ((l.1 : Int), st.heap.length) hj
      · have ht : l.1 + 1 - st.recs.length = ((l.1 : Int) - (lastCp lines + 1)).toNat := by
          omega
        rw [ht, List.getElem?_append_right (by rw [hGlen])]
        rw [hGlen, Nat.sub_self, List.getElem?_cons_zero]
      · exact hpropsAt
  · intro k l1 l2 h1 h2 v hv1 hv2
    rcases lines_append_cases lines l (k + 1) l2 h2 with ⟨hk2, hold2⟩ | ⟨hk2, heq⟩
    · have hk1 : k < lines.length := by omega
      have hold1 : lines[k]? = some l1 := by
        rcases lines_append_cases lines l k l1 h1 with ⟨-, h⟩ | ⟨hke, -⟩
        · exact h
        · omega
      have hle := hinv.cpLe (k + 1) l2 hold2
      have hidx : v + 1 < st.recs.length := by omega
      constructor
      · intro hl d hd
        rw [dictAt_extend2 st _ ([props] ++ newH) newC hinv.refsB _ hidx]
        exact (hinv.gapD k l1 l2 hold1 hold2 v hv1 hv2).1 hl d hd
      · intro hl
        obtain ⟨c2, hc2⟩ := (hinv.gapD k l1 l2 hold1 hold2 v hv1 hv2).2 hl
        exact ⟨c2, by
          rw [dictAt_extend2 st _ ([props] ++ newH) newC hinv.refsB _ hidx]; exact hc2⟩
    · have hold1 : lines[k]? = some l1 := by
        rcases lines_append_cases lines l k l1 h1 with ⟨-, h⟩ | ⟨hke, -⟩
        · exact h
        · omega
      have hl1cp : (l1.1 : Int) = lastCp lines := lastLine_cp lines k l1 hk2 hold1
      rw [heq] at hv2
      have hj : st.recs.length ≤ v + 1 := by omega
      constructor
      · intro hl
        rw [heq, hlast] at hl
        exact absurd hl (by simp)
      · intro hl
        refine ⟨c, ?_⟩
        apply dictAt_new st _ ([props] ++ newH) newC (v + 1)
          (lastCp lines + 1 + ((v + 1 - st.recs.length : Nat) : Int), cr) hj
        · have ht : v + 1 - st.recs.length <
              ((l.1 : Int) - (lastCp lines + 1)).toNat := by omega
          rw [List.getElem?_append_left (by rw [hGlen]; exact ht)]
          exact hGgetAt _ ht
        · exact hcrD

end Colt

namespace Colt

/-- Whether current.get("Name").endswith would succeed on the line's
resolved PROPERTIES. -/
def lineNameOk (env : Env) (l : Nat × List String) : Bool :=
  match buildPropsOpt env l.1 l.2 with
  | some d => (nameValue env d).isSome
  | none => false

/-- Well-formedness of one main-table line: code point within bounds,
all fourteen columns present, Name resolvable. -/
def lineOk (env : Env) (l : Nat × List String) : Prop :=
  l.1 ≤ maxCodePoint ∧ (buildPropsOpt env l.1 l.2).isSome = true ∧
    lineNameOk env l = true

/-- The code points of the lines strictly increase, starting above the
given previous value. -/
def IncFrom (p : Int) (ls : List (Nat × List String)) : Prop :=
  List.Chain (fun a b => a < b) p (ls.map (fun l => (l.1 : Int)))

/-- Strictly increasing code points (above the -1 sentinel). -/
def linesSorted (lines : List (Nat × List String)) : Prop := IncFrom (-1) lines

lemma isLastRec_eq (env : Env) (l : Nat × List String) (props : PyDict) (nm : String)
    (hbp : buildPropsOpt env l.1 l.2 = some props)
    (hnm : nameValue env props = some nm) :
    isLastRec env l = strEndsWith nm (", Last>") := by
  unfold isLastRec
  simp only [hbp, hnm]

/-- One successful, invariant-preserving step. -/
lemma udStep_some_inv (env : Env) (st : St) (lines : List (Nat × List String))
    (l : Nat × List String)
    (hinv : Inv env st lines) (hgt : lastCp lines < (l.1 : Int))
    (hok : lineOk env l) :
    ∃ st2, udStep env st l = some st2 ∧ Inv env st2 (lines ++ [l]) := by
  obtain ⟨hmax2, hbpS, hnmS⟩ := hok
  obtain ⟨props, hbp⟩ := Option.isSome_iff_exists.mp hbpS
  have hnm : ∃ nm, nameValue env props = some nm := by
    unfold lineNameOk at hnmS
    rw [hbp] at hnmS
    exact Option.isSome_iff_exists.mp hnmS
  obtain ⟨nm, hnm⟩ := hnm
  have hprev : prevOf st = lastCp lines := prevOf_eq_lastCp env st lines hinv
  have hmaxneg : ¬l.1 > maxCodePoint := by omega
  by_cases hc : (l.1 : Int) = lastCp lines + 1
  · refine ⟨_, udStep_contig env st l props hmaxneg hbp (by rw [hprev]; exact hc), ?_⟩
    have hlist : [((l.1 : Int), st.heap.length)] =
        (pyRangeI (lastCp lines) l.1).map (fun i => (i + 1, st.heap.length)) := by
      have h1 : ((l.1 : Int) - lastCp lines).toNat = 1 := by omega
      unfold pyRangeI
      rw [h1]
      rw [show pyRange (lastCp lines) 1 = [lastCp lines] from rfl]
      rw [List.map_cons, List.map_nil, hc]
    rw [hlist]
    exact inv_run env st lines l props hinv (by omega) hmax2 hbp (Or.inl hc)
  · by_cases hl : strEndsWith nm (", Last>") = true
    · have hgt2 : lastCp lines < (l.1 : Int) := hgt
      refine ⟨_, udStep_run env st l props nm hmaxneg hbp (by rw [hprev]; exact hc) hnm hl, ?_⟩
      rw [hprev]
      refine inv_run env st lines l props hinv hgt2 hmax2 hbp (Or.inr ?_)
      rw [isLastRec_eq env l props nm hbp hnm]
      exact hl
    · have hlast2 : strEndsWith nm (", Last>") = false := by
        simpa using hl
      have hne : (l.1 : Int) ≠ prevOf st + 1 := by
        rw [hprev]
        exact hc
      have hne2 : lastCp lines + 2 ≤ (l.1 : Int) := by omega
      have hLRf : isLastRec env l = false := by
        rw [isLastRec_eq env l props nm hbp hnm]
        exact hlast2
      cases hcache : st.cache with
      | some cr =>
        refine ⟨_, udStep_gap_cached env st l props nm cr hmaxneg hbp hne hnm hlast2 hcache, ?_⟩
        obtain ⟨hcrB, c, hcrD⟩ := hinv.cacheB cr hcache
        rw [hprev, List.append_assoc]
        have hinv2 := inv_gap env st lines l props [] cr c st.cache hinv hne2 hmax2 hbp hLRf
          (by rw [List.append_nil, List.length_append]; simp only [List.length_cons, List.length_nil]; omega)
          (by rw [List.append_nil, List.getElem?_append_left hcrB]; exact hcrD)
          (by
            intro cr2 hcr2
            rw [hcache] at hcr2
            have hcr3 : cr2 = cr := Option.some.inj hcr2.symm
            subst hcr3
            refine ⟨by rw [List.append_nil, List.length_append]; simp only [List.length_cons, List.length_nil]; omega, c, ?_⟩
            rw [List.append_nil, List.getElem?_append_left hcrB]
            exact hcrD)
        simpa using hinv2
      | none =>
        have hgapne : ¬(pyRangeI (prevOf st + 1) l.1).isEmpty = true := by
          rw [hprev]
          rw [List.isEmpty_iff_length_eq_zero, pyRangeI_length]
          omega
        refine ⟨_, udStep_gap_alloc env st l props nm hmaxneg hbp hne hnm hlast2 hcache hgapne, ?_⟩
        rw [hprev, List.append_assoc, List.append_assoc]
        have hcrD2 : (st.heap ++ ([props] ++ [default_properties_fn env l.1]))[st.heap.length + 1]? =
            some (default_properties_fn env l.1) := by
          rw [List.getElem?_append_right (by omega)]
          have h2 : st.heap.length + 1 - st.heap.length = 1 := by omega
          rw [h2]
          rfl
        have hlen2 : (st.heap ++ ([props] ++ [default_properties_fn env l.1])).length =
            st.heap.length + 2 := by
          rw [List.length_append, List.length_append]
          simp only [List.length_cons, List.length_nil]
        exact inv_gap env st lines l props [default_properties_fn env l.1]
          (st.heap.length + 1) l.1 (some (st.heap.length + 1)) hinv hne2 hmax2 hbp hLRf
          (by rw [hlen2]; omega) hcrD2
          (by
            intro cr2 hcr2
            have hcr3 : cr2 = st.heap.length + 1 := Option.some.inj hcr2.symm
            subst hcr3
            exact ⟨by rw [hlen2]; omega, l.1, hcrD2⟩)

/-- The fold preserves the invariant and never fails on well-formed,
sorted input. -/
lemma udFold_inv (env : Env) : ∀ (added lines0 : List (Nat × List String)) (st1 : St),
    Inv env st1 lines0 → IncFrom (lastCp lines0) added →
    (∀ l ∈ added, lineOk env l) →
    ∃ st2, udFold env st1 added = some st2 ∧ Inv env st2 (lines0 ++ added) := by
  intro added
  induction added with
  | nil =>
    intro lines0 st1 hinv _ _
    exact ⟨st1, rfl, by rw [List.append_nil]; exact hinv⟩
  | cons l rest ih =>
    intro lines0 st1 hinv hinc hok
    unfold IncFrom at hinc
    rw [List.map_cons, List.chain_cons] at hinc
    obtain ⟨hgt, hrest⟩ := hinc
    obtain ⟨stm, hstep, hinvm⟩ := udStep_some_inv env st1 lines0 l hinv hgt
      (hok l (List.mem_cons_self l rest))
    have hinc2 : IncFrom (lastCp (lines0 ++ [l])) rest := by
      unfold IncFrom
      rw [lastCp_concat]
      exact hrest
    obtain ⟨st2, hfold, hinv2⟩ := ih (lines0 ++ [l]) stm hinvm hinc2
      (fun x hx => hok x (List.mem_cons_of_mem l hx))
    refine ⟨st2, ?_, ?_⟩
    · show (match udStep env st1 l with
        | none => none
        | some s => udFold env s rest) = some st2
      rw [hstep]
      exact hfold
    · rw [List.append_cons]
      exact hinv2

end Colt

namespace Colt

/-! ### Tail fill -/

lemma tailFill_heap (st : St) : (tailFill st).heap = st.heap := rfl

lemma tailFill_recs (st : St) :
    (tailFill st).recs = st.recs ++ lazyGen
      (fun i => (i, ((st.recs.getLast?).map Prod.snd).getD 0))
      ((st.recs.length : Int) - 1) ((maxCodePoint + 2) - st.recs.length) := rfl

lemma tailFill_length (st : St) (h : st.recs.length ≤ maxCodePoint + 2) :
    (tailFill st).recs.length = maxCodePoint + 2 := by
  rw [tailFill_recs, List.length_append, lazyGen_length]
  omega

lemma tailFill_prefix (st : St) (j : Nat) (hj : j < st.recs.length) :
    (tailFill st).recs[j]? = st.recs[j]? := by
  rw [tailFill_recs]
  exact List.getElem?_append_left hj

lemma lastRef_lt (env : Env) (st : St) (lines : List (Nat × List String))
    (hinv : Inv env st lines) :
    ((st.recs.getLast?).map Prod.snd).getD 0 < st.heap.length := by
  have hlen := hinv.len
  have hge := lastCp_ge lines
  have hne : st.recs.length ≥ 1 := by omega
  rw [List.getLast?_eq_getElem?]
  cases hx : st.recs[st.recs.length - 1]? with
  | none =>
    rw [List.getElem?_eq_getElem (by omega)] at hx
    exact absurd hx (by simp)
  | some e =>
    simp only [Option.map_some', Option.getD_some]
    exact hinv.refsB _ e hx

lemma tailFill_contig (env : Env) (st : St) (lines : List (Nat × List String))
    (hinv : Inv env st lines) :
    ∀ j, j < (tailFill st).recs.length →
      ((tailFill st).recs[j]?).map Prod.fst = some ((j : Int) - 1) := by
  rw [tailFill_recs]
  apply contig_append st.recs _ hinv.contig
  intro t e he
  rw [lazyGen_getElem?] at he
  by_cases h : t < (maxCodePoint + 2) - st.recs.length
  · rw [if_pos h] at he
    have h2 := Option.some.inj he
    rw [← h2]
    simp only []
    omega
  · rw [if_neg h] at he
    simp at he

lemma tailFill_refsB (env : Env) (st : St) (lines : List (Nat × List String))
    (hinv : Inv env st lines) :
    ∀ (j : Nat) (e : Int × Nat), (tailFill st).recs[j]? = some e →
      e.2 < st.heap.length := by
  rw [tailFill_recs]
  apply refsB_append st.recs _ st.heap.length st.heap.length hinv.refsB (le_refl _)
  intro t e he
  rw [lazyGen_getElem?] at he
  by_cases h : t < (maxCodePoint + 2) - st.recs.length
  · rw [if_pos h] at he
    have h2 := Option.some.inj he
    rw [← h2]
    exact lastRef_lt env st lines hinv
  · rw [if_neg h] at he
    simp at he

/-! ### Overlay pass -/

/-- The second heap is the first with changes confined to the keys of K. -/
def AgreeOff (K : List String) (heap h2 : List PyDict) : Prop :=
  h2.length = heap.length ∧
  ∀ (r : Nat) (d2 : PyDict), h2[r]? = some d2 →
    ∃ d, heap[r]? = some d ∧ ∀ k, ¬k ∈ K → d2 k = d k

lemma agreeOff_refl (K : List String) (heap : List PyDict) : AgreeOff K heap heap :=
  ⟨rfl, fun r d2 h => ⟨d2, h, fun _ _ => rfl⟩⟩

lemma agreeOff_trans (K : List String) (h1 h2 h3 : List PyDict)
    (a : AgreeOff K h1 h2) (b : AgreeOff K h2 h3) : AgreeOff K h1 h3 := by
  refine ⟨by rw [b.1, a.1], ?_⟩
  intro r d3 hd3
  obtain ⟨d2, hd2, he2⟩ := b.2 r d3 hd3
  obtain ⟨d1, hd1, he1⟩ := a.2 r d2 hd2
  exact ⟨d1, hd1, fun k hk => by rw [he2 k hk, he1 k hk]⟩

lemma overlayFoldJ (recs : List (Int × Nat)) (key : String) (K : List String)
    (hkey : key ∈ K) :
    ∀ (js : List Nat) (heap : List PyDict),
      (∀ j ∈ js, j < recs.length) →
      (∀ (j : Nat) (e : Int × Nat), recs[j]? = some e → e.2 < heap.length) →
      ∃ h2, js.foldl (overlayWrite recs key) (some heap) = some h2 ∧
        AgreeOff K heap h2 := by
  intro js
  induction js with
  | nil =>
    intro heap _ _
    exact ⟨heap, rfl, agreeOff_refl K heap⟩
  | cons j js ih =>
    intro heap hjs hrefs
    have hj : j < recs.length := hjs j (List.mem_cons_self j js)
    cases hx : recs[j]? with
    | none =>
      rw [List.getElem?_eq_getElem hj] at hx
      exact absurd hx (by simp)
    | some e =>
      have heb : e.2 < heap.length := hrefs j e hx
      cases hd : heap[e.2]? with
      | none =>
        rw [List.getElem?_eq_getElem heb] at hd
        exact absurd hd (by simp)
      | some d =>
        have hstep : overlayWrite recs key (some heap) j =
            some (heap.set e.2 (pdset d key (some ("Y")))) := by
          unfold overlayWrite
          simp only [pyNth_eq, hx, hd]
        have hrefs2 : ∀ (j2 : Nat) (e2 : Int × Nat), recs[j2]? = some e2 →
            e2.2 < (heap.set e.2 (pdset d key (some ("Y")))).length := by
          intro j2 e2 h2
          rw [List.length_set]
          exact hrefs j2 e2 h2
        obtain ⟨h2, hfold, hagree⟩ := ih (heap.set e.2 (pdset d key (some ("Y"))))
          (fun x hx2 => hjs x (List.mem_cons_of_mem j hx2)) hrefs2
        refine ⟨h2, ?_, ?_⟩
        · rw [List.foldl_cons, hstep]
          exact hfold
        · refine agreeOff_trans K heap _ h2 ⟨List.length_set heap _ _, ?_⟩ hagree
          intro r d2 hd2
          by_cases hr : r = e.2
          · subst hr
            rw [List.getElem?_set_self heb] at hd2
            refine ⟨d, hd, ?_⟩
            intro k hk
            have hd2b : d2 = pdset d key (some ("Y")) := (Option.some.inj hd2).symm
            rw [hd2b]
            unfold pdset
            rw [if_neg ?_]
            intro hke
            rw [hke] at hk
            exact hk hkey
          · rw [List.getElem?_set_ne (fun h => hr h.symm)] at hd2
            exact ⟨d2, hd2, fun _ _ => rfl⟩

lemma overlayEntry_spec (env : Env) (recs : List (Int × Nat)) (heap : List PyDict)
    (bp : (Nat × Nat) × String × String) (K : List String)
    (hkey : env.aliasOf bp.2.1 ∈ K)
    (hlen : maxCodePoint + 1 ≤ recs.length)
    (hrefs : ∀ (j : Nat) (e : Int × Nat), recs[j]? = some e → e.2 < heap.length)
    (hbp : bp.1.2 ≤ maxCodePoint) :
    ∃ h2, overlayEntry env recs heap bp = some h2 ∧ AgreeOff K heap h2 := by
  apply overlayFoldJ recs (env.aliasOf bp.2.1) K hkey _ heap _ hrefs
  intro j hj
  have h2 := pyRangeN_mem _ _ j hj
  omega

lemma overlayAll_spec (env : Env) (recs : List (Int × Nat)) (K : List String)
    (hlen : maxCodePoint + 1 ≤ recs.length) :
    ∀ (bps : List ((Nat × Nat) × String × String)) (heap : List PyDict),
      (∀ bp ∈ bps, env.aliasOf bp.2.1 ∈ K ∧ bp.1.2 ≤ maxCodePoint) →
      (∀ (j : Nat) (e : Int × Nat), recs[j]? = some e → e.2 < heap.length) →
      ∃ h2, overlayAll env recs heap bps = some h2 ∧ AgreeOff K heap h2 := by
  intro bps
  induction bps with
  | nil =>
    intro heap _ _
    exact ⟨heap, rfl, agreeOff_refl K heap⟩
  | cons bp bps ih =>
    intro heap hbps hrefs
    obtain ⟨hkey, hmax⟩ := hbps bp (List.mem_cons_self bp bps)
    obtain ⟨h1, hent, hagree1⟩ := overlayEntry_spec env recs heap bp K hkey hlen hrefs hmax
    have hrefs2 : ∀ (j : Nat) (e : Int × Nat), recs[j]? = some e → e.2 < h1.length := by
      intro j e he
      rw [hagree1.1]
      exact hrefs j e he
    obtain ⟨h2, hall, hagree2⟩ := ih h1
      (fun x hx => hbps x (List.mem_cons_of_mem bp hx)) hrefs2
    refine ⟨h2, ?_, agreeOff_trans K heap h1 h2 hagree1 hagree2⟩
    show (match overlayEntry env recs heap bp with
      | none => none
      | some hp => overlayAll env recs hp bps) = some h2
    rw [hent]
    exact hall

end Colt

namespace Colt

lemma parse_unfold (env : Env) (lines : List (Nat × List String)) (st : St)
    (heap2 : List PyDict)
    (hfold : udFold env { recs := [((-1 : Int), 0)], heap := [emptyDict], cache := none }
      lines = some st)
    (hov : overlayAll env ((tailFill st).recs.drop 1) (tailFill st).heap env.binprops =
      some heap2) :
    parse_unicodedata env lines = some ((tailFill st).recs.drop 1, heap2) := by
  unfold parse_unicodedata
  have h0 : initSt = some { recs := [((-1 : Int), 0)], heap := [emptyDict], cache := none } :=
    rfl
  rw [h0]
  simp only [hfold, hov]

/-- Full characterization of a successful run: the invariant state, the
returned record list, and the key-confinement of the overlay pass. -/
lemma parse_spec (env : Env) (lines : List (Nat × List String))
    (hsorted : linesSorted lines) (hok : ∀ l ∈ lines, lineOk env l)
    (hbps : ∀ bp ∈ env.binprops, bp.1.2 ≤ maxCodePoint) :
    ∃ (st : St) (heap2 : List PyDict), Inv env st lines ∧
      parse_unicodedata env lines = some ((tailFill st).recs.drop 1, heap2) ∧
      AgreeOff (otherPropsKeys env) st.heap heap2 := by
  have h0 : initSt = some { recs := [((-1 : Int), 0)], heap := [emptyDict], cache := none } :=
    rfl
  have hinv0 := inv_init env _ h0
  obtain ⟨st, hfold, hinv⟩ := udFold_inv env lines []
    { recs := [((-1 : Int), 0)], heap := [emptyDict], cache := none } hinv0 hsorted hok
  rw [List.nil_append] at hinv
  have hlenB : st.recs.length ≤ maxCodePoint + 2 := by
    have h1 := hinv.len
    have h2 := hinv.cpmax
    omega
  have htlen : (tailFill st).recs.length = maxCodePoint + 2 := tailFill_length st hlenB
  have hdlen : ((tailFill st).recs.drop 1).length = maxCodePoint + 1 := by
    rw [List.length_drop, htlen]
    omega
  have hrefs : ∀ (j : Nat) (e : Int × Nat), ((tailFill st).recs.drop 1)[j]? = some e →
      e.2 < st.heap.length := by
    intro j e he
    rw [List.getElem?_drop] at he
    exact tailFill_refsB env st lines hinv _ e he
  obtain ⟨heap2, hov, hagree⟩ := overlayAll_spec env ((tailFill st).recs.drop 1)
    (otherPropsKeys env) (by omega) env.binprops (tailFill st).heap
    (fun bp hbp => ⟨List.mem_map.mpr ⟨bp, hbp, rfl⟩, hbps bp hbp⟩)
    (by rw [tailFill_heap]; exact hrefs)
  exact ⟨st, heap2, hinv, parse_unfold env lines st heap2 hfold hov, hagree⟩

end Colt

namespace Colt

/-- Executable check of IncFrom. -/
def incFromB (p : Int) : List (Nat × List String) → Bool
  | [] => true
  | l :: ls => decide (p < (l.1 : Int)) && incFromB (l.1 : Int) ls

lemma incFromB_iff : ∀ (p : Int) (ls : List (Nat × List String)),
    IncFrom p ls ↔ incFromB p ls = true := by
  intro p ls
  induction ls generalizing p with
  | nil =>
    unfold IncFrom incFromB
    simp
  | cons l ls ih =>
    unfold IncFrom incFromB
    rw [List.map_cons, List.chain_cons, Bool.and_eq_true, decide_eq_true_iff]
    exact and_congr Iff.rfl (ih (l.1 : Int))

instance (p : Int) (ls : List (Nat × List String)) : Decidable (IncFrom p ls) :=
  decidable_of_iff _ (incFromB_iff p ls).symm

instance (lines : List (Nat × List String)) : Decidable (linesSorted lines) :=
  inferInstanceAs (Decidable (IncFrom (-1) lines))

instance (env : Env) (l : Nat × List String) : Decidable (lineOk env l) :=
  inferInstanceAs (Decidable (_ ∧ _ ∧ _))

/-- Claim C5: on sorted, well-formed input the normalizer returns a list
of exactly 0x110000 entries whose entry at index i carries code point
value i — including the tail-filled entries appended after the input is
exhausted. -/
theorem c5_table_complete (env : Env) (lines : List (Nat × List String))
    (hsorted : linesSorted lines) (hok : ∀ l ∈ lines, lineOk env l)
    (hbps : ∀ bp ∈ env.binprops, bp.1.2 ≤ maxCodePoint) :
    ∃ t, parse_unicodedata env lines = some t ∧ t.1.length = 0x110000 ∧
      ∀ i : Nat, i < 0x110000 → (t.1[i]?).map Prod.fst = some (i : Int) := by
  obtain ⟨st, heap2, hinv, hparse, hagree⟩ := parse_spec env lines hsorted hok hbps
  have hm : maxCodePoint = 0x10FFFF := rfl
  have hlenB : st.recs.length ≤ maxCodePoint + 2 := by
    have h1 := hinv.len
    have h2 := hinv.cpmax
    omega
  have htlen : (tailFill st).recs.length = maxCodePoint + 2 := tailFill_length st hlenB
  refine ⟨_, hparse, ?_, ?_⟩
  · show ((tailFill st).recs.drop 1).length = 0x110000
    rw [List.length_drop, htlen]
    omega
  · intro i hi
    show (((tailFill st).recs.drop 1)[i]?).map Prod.fst = some (i : Int)
    rw [List.getElem?_drop]
    have hc := tailFill_contig env st lines hinv (1 + i) (by rw [htlen]; omega)
    rw [hc]
    simp only [Option.some.injEq]
    push_cast
    ring

set_option maxRecDepth 10000 in
/-- Witness for C5 on the concrete environment and lines of C2. -/
theorem c5_table_complete_witness :
    ∃ t, parse_unicodedata envC2 linesC2 = some t ∧ t.1.length = 0x110000 ∧
      ∀ i : Nat, i < 0x110000 → (t.1[i]?).map Prod.fst = some (i : Int) :=
  c5_table_complete envC2 linesC2 (by decide) (by decide) (by decide)

end Colt

namespace Colt

lemma incFrom_pair : ∀ (p : Int) (ls : List (Nat × List String)) (k : Nat)
    (a b : Nat × List String), IncFrom p ls → ls[k]? = some a →
    ls[k + 1]? = some b → (a.1 : Int) < (b.1 : Int) := by
  intro p ls
  induction ls generalizing p with
  | nil =>
    intro k a b _ ha _
    rw [List.getElem?_nil] at ha
    exact absurd ha (by simp)
  | cons x xs ih =>
    intro k a b hinc ha hb
    unfold IncFrom at hinc
    rw [List.map_cons, List.chain_cons] at hinc
    obtain ⟨hpx, hrest⟩ := hinc
    cases k with
    | zero =>
      rw [List.getElem?_cons_zero] at ha
      have hax : a = x := (Option.some.inj ha).symm
      rw [List.getElem?_cons_succ] at hb
      cases xs with
      | nil =>
        rw [List.getElem?_nil] at hb
        exact absurd hb (by simp)
      | cons y ys =>
        rw [List.getElem?_cons_zero] at hb
        have hby : b = y := (Option.some.inj hb).symm
        rw [List.map_cons, List.chain_cons] at hrest
        rw [hax, hby]
        exact hrest.1
    | succ k =>
      rw [List.getElem?_cons_succ] at ha hb
      exact ih (x.1 : Int) k a b hrest ha hb

/-- Reading one final record: the returned dict value agrees with the
pre-overlay dict on every property whose abbreviation is not a binary
overlay key, and the record carries its own index as code point. -/
lemma lookup_final (env : Env) (lines : List (Nat × List String)) (st : St)
    (heap2 : List PyDict)
    (hinv : Inv env st lines)
    (hagree : AgreeOff (otherPropsKeys env) st.heap heap2)
    (v : Nat) (hv : v + 1 < st.recs.length)
    (dpre : PyDict) (hda : dictAt st (v + 1) = some dpre)
    (p : String) (hp : ¬env.aliasOf p ∈ otherPropsKeys env) :
    lookupProp env ((tailFill st).recs.drop 1, heap2) v p = dpre (env.aliasOf p) ∧
    (((tailFill st).recs.drop 1)[v]?).map Prod.fst = some (v : Int) := by
  have hrec : ((tailFill st).recs.drop 1)[v]? = st.recs[v + 1]? := by
    rw [List.getElem?_drop, tailFill_prefix st (1 + v) (by omega)]
    congr 1
    omega
  unfold dictAt at hda
  cases hx : st.recs[v + 1]? with
  | none =>
    rw [hx] at hda
    exact absurd hda (by simp)
  | some e =>
    rw [hx] at hda
    have hda2 : st.heap[e.2]? = some dpre := hda
    have heb : e.2 < st.heap.length := hinv.refsB _ e hx
    have heb2 : e.2 < heap2.length := by
      rw [hagree.1]
      exact heb
    have hd2 : heap2[e.2]? = some heap2[e.2] := List.getElem?_eq_getElem heb2
    obtain ⟨dd, hdd, hoff⟩ := hagree.2 e.2 heap2[e.2] hd2
    have hddp : dd = dpre := by
      rw [hda2] at hdd
      exact (Option.some.inj hdd).symm
    constructor
    · unfold lookupProp
      simp only [pyNth_eq, hrec, hx, hd2]
      rw [hoff _ hp, hddp]
    · rw [hrec]
      have hc := hinv.contig (v + 1) hv
      rw [hc]
      simp only [Option.some.injEq]
      push_cast
      ring

/-- Claim C4: for a First record at code point X and a Last record at a
higher code point Y carrying the same resolved property values d (the
Last record's Name ending in the Last suffix), every code point in [X, Y]
resolves every property — outside the binary overlay keys — to d's value,
with only the code point field varying across the records. -/
theorem c4_range_run (env : Env) (lines : List (Nat × List String))
    (k : Nat) (l1 l2 : Nat × List String) (d : PyDict) (v : Nat) (p : String)
    (hsorted : linesSorted lines) (hok : ∀ l ∈ lines, lineOk env l)
    (hbps : ∀ bp ∈ env.binprops, bp.1.2 ≤ maxCodePoint)
    (hk1 : lines[k]? = some l1) (hk2 : lines[k + 1]? = some l2)
    (hd1 : buildPropsOpt env l1.1 l1.2 = some d)
    (hd2 : buildPropsOpt env l2.1 l2.2 = some d)
    (hlast : isLastRec env l2 = true)
    (hv1 : l1.1 ≤ v) (hv2 : v ≤ l2.1)
    (hp : ¬env.aliasOf p ∈ otherPropsKeys env) :
    ∃ t, parse_unicodedata env lines = some t ∧
      (t.1[v]?).map Prod.fst = some (v : Int) ∧
      lookupProp env t v p = d (env.aliasOf p) := by
  obtain ⟨st, heap2, hinv, hparse, hagree⟩ := parse_spec env lines hsorted hok hbps
  have hXY : (l1.1 : Int) < (l2.1 : Int) := incFrom_pair (-1) lines k l1 l2 hsorted hk1 hk2
  have hle := hinv.cpLe (k + 1) l2 hk2
  have hlen := hinv.len
  have hv : v + 1 < st.recs.length := by omega
  have hda : dictAt st (v + 1) = some d := by
    by_cases hva : v = l1.1
    · rw [hva]
      exact hinv.explicitD k l1 hk1 d hd1
    · by_cases hvb : v = l2.1
      · rw [hvb]
        exact hinv.explicitD (k + 1) l2 hk2 d hd2
      · exact (hinv.gapD k l1 l2 hk1 hk2 v (by omega) (by omega)).1 hlast d hd2
  obtain ⟨hlook, hcp⟩ := lookup_final env lines st heap2 hinv hagree v hv d hda p hp
  exact ⟨_, hparse, hcp, hlook⟩

end Colt

namespace Colt

def envC4 : Env := { aliasOf := stdAlias, defaultOf := fun _ => none, binprops := [] }

def fieldsC4 : List String := stdFields ("<CJK Ideograph, Last>") ("Lo")

def linesC4 : List (Nat × List String) :=
  [(0, stdFields ("A") ("Lu")), (1, fieldsC4), (4, fieldsC4)]

set_option maxRecDepth 10000 in
/-- Witness for C4: a First record at 1 and a Last record at 4 with the
same fields; code point 2 resolves General_Category to the shared Lo. -/
theorem c4_range_run_witness :
    ∃ t, parse_unicodedata envC4 linesC4 = some t ∧
      (t.1[2]?).map Prod.fst = some (2 : Int) ∧
      lookupProp envC4 t 2 ("General_Category") = some (some ("Lo")) := by
  obtain ⟨t, h1, h2, h3⟩ := c4_range_run envC4 linesC4 1 (1, fieldsC4) (4, fieldsC4)
    ((buildPropsOpt envC4 1 fieldsC4).getD emptyDict) 2 ("General_Category")
    (by decide) (by decide) (by decide) (by decide) (by decide)
    (by rfl) (by rfl) (by decide) (by decide) (by decide) (by decide)
  refine ⟨t, h1, h2, ?_⟩
  rw [h3]
  decide

/-- The main-table property names listed after General_Category (the
deprecated ISO_Comment is skipped by the loop and omitted here). -/
def GC_LATER : List String :=
  ["Canonical_Combining_Class", "Bidi_Class", "Decomposition_Type", "Numeric_Type",
   "Numeric_Value", "Bidi_Mirrored", "Unicode_1_Name",
   "Simple_Uppercase_Mapping", "Simple_Lowercase_Mapping", "Simple_Titlecase_Mapping"]

/-- The memoized default dict resolves General_Category to Cn whenever
the declared default value is the literal Unassigned, whatever the
captured code point and the default's range conditioning. -/
lemma default_properties_gc (env : Env) (c : Nat) (b e : Nat)
    (hgc : env.defaultOf (env.aliasOf ("General_Category")) = some (b, e, "Unassigned"))
    (hnoclash : ∀ nm ∈ GC_LATER, env.aliasOf nm ≠ env.aliasOf ("General_Category")) :
    default_properties_fn env c (env.aliasOf ("General_Category")) = some (some ("Cn")) := by
  have hno : ∀ nm, nm ∈ GC_LATER →
      ¬env.aliasOf ("General_Category") = env.aliasOf nm := by
    intro nm hnm h
    exact hnoclash nm hnm h.symm
  unfold default_properties_fn UNICODE_DATA_PROPERTIES
  simp only [List.foldl_cons, List.foldl_nil]
  rw [if_neg (by decide), if_neg (by decide), if_neg (by decide), if_pos (by decide),
    if_neg (by decide), if_neg (by decide), if_neg (by decide), if_neg (by decide),
    if_neg (by decide), if_neg (by decide), if_neg (by decide), if_neg (by decide),
    if_neg (by decide), if_neg (by decide)]
  unfold pdset
  rw [if_neg (hno ("Simple_Titlecase_Mapping") (by decide)),
    if_neg (hno ("Simple_Lowercase_Mapping") (by decide)),
    if_neg (hno ("Simple_Uppercase_Mapping") (by decide)),
    if_neg (hno ("Unicode_1_Name") (by decide)),
    if_neg (hno ("Bidi_Mirrored") (by decide)),
    if_neg (hno ("Numeric_Value") (by decide)),
    if_neg (hno ("Numeric_Value") (by decide)),
    if_neg (hno ("Numeric_Type") (by decide)),
    if_neg (hno ("Decomposition_Type") (by decide)),
    if_neg (hno ("Bidi_Class") (by decide)),
    if_neg (hno ("Canonical_Combining_Class") (by decide)),
    if_pos rfl]
  rw [hgc]
  rfl

end Colt

namespace Colt

/-- Claim C3 as amended: a code point with no explicit record, lying
between two consecutive lines of which the second is not a Last
range-run record, resolves General_Category to Cn exactly because the
gap-filled record carries the memoized global default, computed from the
declared default value Unassigned while ignoring the default's range
conditioning; with no declared gc default the value would be absent (see
the counterexample). -/
theorem c3_amended (env : Env) (lines : List (Nat × List String))
    (k : Nat) (l1 l2 : Nat × List String) (v : Nat) (b e : Nat)
    (hsorted : linesSorted lines) (hok : ∀ l ∈ lines, lineOk env l)
    (hbps : ∀ bp ∈ env.binprops, bp.1.2 ≤ maxCodePoint)
    (hk1 : lines[k]? = some l1) (hk2 : lines[k + 1]? = some l2)
    (hv1 : l1.1 < v) (hv2 : v < l2.1)
    (hlast : isLastRec env l2 = false)
    (hgc : env.defaultOf (env.aliasOf ("General_Category")) = some (b, e, "Unassigned"))
    (hnoclash : ∀ nm ∈ GC_LATER, env.aliasOf nm ≠ env.aliasOf ("General_Category"))
    (hp : ¬env.aliasOf ("General_Category") ∈ otherPropsKeys env) :
    ∃ t, parse_unicodedata env lines = some t ∧
      lookupProp env t v ("General_Category") = some (some ("Cn")) := by
  obtain ⟨st, heap2, hinv, hparse, hagree⟩ := parse_spec env lines hsorted hok hbps
  have hle := hinv.cpLe (k + 1) l2 hk2
  have hlen := hinv.len
  have hv : v + 1 < st.recs.length := by omega
  obtain ⟨c, hda⟩ := (hinv.gapD k l1 l2 hk1 hk2 v hv1 hv2).2 hlast
  obtain ⟨hlook, -⟩ := lookup_final env lines st heap2 hinv hagree v hv _ hda
    ("General_Category") hp
  refine ⟨_, hparse, ?_⟩
  rw [hlook]
  exact default_properties_gc env c b e hgc hnoclash

def envC3W : Env :=
  { aliasOf := stdAlias,
    defaultOf := fun a => if a = "gc" then some (0, 0x10FFFF, "Unassigned") else none,
    binprops := [] }

def linesC3W : List (Nat × List String) :=
  [(0, stdFields ("A") ("Lu")), (3, stdFields ("B") ("Lu"))]

set_option maxRecDepth 10000 in
/-- Witness for C3 as amended: with the usual UCD gc default Unassigned,
the gap-filled code point 1 resolves General_Category to Cn. -/
theorem c3_amended_witness :
    ∃ t, parse_unicodedata envC3W linesC3W = some t ∧
      lookupProp envC3W t 1 ("General_Category") = some (some ("Cn")) :=
  c3_amended envC3W linesC3W 0 (0, stdFields ("A") ("Lu")) (3, stdFields ("B") ("Lu"))
    1 0 0x10FFFF (by decide) (by decide) (by decide) (by decide) (by decide)
    (by decide) (by decide) (by decide) (by decide) (by decide) (by decide)

end Colt
